import Mathlib

set_option maxRecDepth 8000

/-
Verification of the Matthew Henry commentary preprocessing pipeline
(`preprocess.py`): markup text extraction, reference-anchor scanning,
passage-reference parsing, context-window location, and book/chapter
structure building.  Strings are modelled as `List Char`; Python regular
expressions are embedded as the deterministic matchers they denote on the
concrete patterns used by the program.
-/

namespace MHC

/-- ASCII whitespace: the model of Python's regex class `\s` (for ASCII text)
and of the character set removed by `str.strip()`. -/
def isSp (c : Char) : Bool :=
  c = ' ' || c = '\t' || c = '\n' || c = '\r' || c = '\x0b' || c = '\x0c'

/-- Python `s.replace(old, new)` for single characters. -/
def replaceChar (old nw : Char) (s : List Char) : List Char :=
  s.map (fun c => if c = old then nw else c)

/-- Python `str.strip()`: remove leading and trailing whitespace. -/
def pyStrip (s : List Char) : List Char :=
  ((s.dropWhile isSp).reverse.dropWhile isSp).reverse

/-- Helper for `collapseWs`; the flag records whether the previous character
was whitespace (so the run is collapsed to the single space already
emitted). -/
def collapseWsAux : Bool → List Char → List Char
  | _, [] => []
  | prevWs, c :: rest =>
    if isSp c then
      if prevWs then collapseWsAux true rest else ' ' :: collapseWsAux true rest
    else c :: collapseWsAux false rest

/-- `re.sub(r'\s+', ' ', s)`: collapse every whitespace run to one space. -/
def collapseWs (s : List Char) : List Char := collapseWsAux false s

/-- `re.sub(r'\s+', ' ', s).strip()` — the normalization applied to document
text and to cleaned display text in `preprocess.py`. -/
def normWs (s : List Char) : List Char := pyStrip (collapseWs s)

/-- Python `hay.find(needle)`: index of the first occurrence, `none` for -1. -/
def pyFind (hay needle : List Char) : Option Nat :=
  if needle.isPrefixOf hay then some 0
  else
    match hay with
    | [] => none
    | _ :: t => (pyFind t needle).map (· + 1)

/-- Numeric value of an ASCII digit. -/
def digitVal (c : Char) : Nat := c.toNat - 48

/-- Python `int(...)` on a string of decimal digits. -/
def digitsVal (s : List Char) : Nat := s.foldl (fun a c => a * 10 + digitVal c) 0

/-- Helper for `natDigits`; the fuel bounds the number of divisions by ten
and `n` itself always suffices. -/
def natDigitsAux : Nat → Nat → List Char
  | 0, n => [Char.ofNat (48 + n % 10)]
  | fuel + 1, n =>
    if n < 10 then [Char.ofNat (48 + n)]
    else natDigitsAux fuel (n / 10) ++ [Char.ofNat (48 + n % 10)]

/-- Decimal digit list of a natural number (used to build chapter tokens). -/
def natDigits (n : Nat) : List Char := natDigitsAux n n

/-- Case-insensitive character comparison (model of `re.IGNORECASE`). -/
def ciEq (a b : Char) : Bool := a.toLower = b.toLower

/-- Case-insensitive prefix test: `ciPrefix pat s` holds when `s` starts with
the pattern `pat` up to case. -/
def ciPrefix : List Char → List Char → Bool
  | [], _ => true
  | _ :: _, [] => false
  | p :: ps, c :: cs => ciEq c p && ciPrefix ps cs

/-- Python dict lookup for a dict built from a literal association list:
later entries for the same key overwrite earlier ones. -/
def pyDictGet (m : List (String × String)) (k : String) : Option String :=
  m.foldl (fun acc kv => if kv.1 = k then some kv.2 else acc) none

/-- Python `dict.get(k, d)`. -/
def pyDictGetD (m : List (String × String)) (k : String) (d : String) : String :=
  (pyDictGet m k).getD d

/-- The `BOOKS` table of `preprocess.py`: two-digit code to canonical name. -/
def BOOKS : List (String × String) :=
  [("00", "Preface"),
   ("01", "Genesis"), ("02", "Exodus"), ("03", "Leviticus"), ("04", "Numbers"),
   ("05", "Deuteronomy"), ("06", "Joshua"), ("07", "Judges"), ("08", "Ruth"),
   ("09", "1 Samuel"), ("10", "2 Samuel"), ("11", "1 Kings"), ("12", "2 Kings"),
   ("13", "1 Chronicles"), ("14", "2 Chronicles"), ("15", "Ezra"),
   ("16", "Nehemiah"), ("17", "Esther"), ("18", "Job"), ("19", "Psalms"),
   ("20", "Proverbs"), ("21", "Ecclesiastes"), ("22", "Song of Solomon"),
   ("23", "Isaiah"), ("24", "Jeremiah"), ("25", "Lamentations"),
   ("26", "Ezekiel"), ("27", "Daniel"), ("28", "Hosea"), ("29", "Joel"),
   ("30", "Amos"), ("31", "Obadiah"), ("32", "Jonah"), ("33", "Micah"),
   ("34", "Nahum"), ("35", "Habakkuk"), ("36", "Zephaniah"), ("37", "Haggai"),
   ("38", "Zechariah"), ("39", "Malachi"), ("40", "Matthew"), ("41", "Mark"),
   ("42", "Luke"), ("43", "John"), ("44", "Acts"), ("45", "Romans"),
   ("46", "1 Corinthians"), ("47", "2 Corinthians"), ("48", "Galatians"),
   ("49", "Ephesians"), ("50", "Philippians"), ("51", "Colossians"),
   ("52", "1 Thessalonians"), ("53", "2 Thessalonians"), ("54", "1 Timothy"),
   ("55", "2 Timothy"), ("56", "Titus"), ("57", "Philemon"), ("58", "Hebrews"),
   ("59", "James"), ("60", "1 Peter"), ("61", "2 Peter"), ("62", "1 John"),
   ("63", "2 John"), ("64", "3 John"), ("65", "Jude"), ("66", "Revelation")]

/-- The `PASSAGE_BOOK_MAP` table of `preprocess.py`, in declaration order.
Note the two entries for `"jud"` (line 43: Judges, line 101: Jude); as a
Python dict literal the later one wins. -/
def PASSAGE_BOOK_MAP : List (String × String) :=
  [("ge", "Genesis"), ("gen", "Genesis"),
   ("ex", "Exodus"), ("exo", "Exodus"), ("exod", "Exodus"),
   ("le", "Leviticus"), ("lev", "Leviticus"),
   ("nu", "Numbers"), ("num", "Numbers"),
   ("de", "Deuteronomy"), ("deu", "Deuteronomy"), ("deut", "Deuteronomy"),
   ("jos", "Joshua"), ("josh", "Joshua"),
   ("jud", "Judges"), ("judg", "Judges"),
   ("ru", "Ruth"), ("rut", "Ruth"), ("ruth", "Ruth"),
   ("1sa", "1 Samuel"), ("1sam", "1 Samuel"),
   ("2sa", "2 Samuel"), ("2sam", "2 Samuel"),
   ("1ki", "1 Kings"), ("1kin", "1 Kings"), ("1kings", "1 Kings"),
   ("2ki", "2 Kings"), ("2kin", "2 Kings"), ("2kings", "2 Kings"),
   ("1ch", "1 Chronicles"), ("1chr", "1 Chronicles"), ("1chron", "1 Chronicles"),
   ("2ch", "2 Chronicles"), ("2chr", "2 Chronicles"), ("2chron", "2 Chronicles"),
   ("ezr", "Ezra"), ("ezra", "Ezra"),
   ("ne", "Nehemiah"), ("neh", "Nehemiah"),
   ("es", "Esther"), ("est", "Esther"), ("esth", "Esther"),
   ("job", "Job"),
   ("ps", "Psalms"), ("psa", "Psalms"), ("psalm", "Psalms"), ("psalms", "Psalms"),
   ("pr", "Proverbs"), ("pro", "Proverbs"), ("prov", "Proverbs"),
   ("ec", "Ecclesiastes"), ("ecc", "Ecclesiastes"), ("eccl", "Ecclesiastes"),
   ("so", "Song of Solomon"), ("song", "Song of Solomon"), ("sos", "Song of Solomon"),
   ("isa", "Isaiah"), ("is", "Isaiah"),
   ("jer", "Jeremiah"), ("je", "Jeremiah"),
   ("la", "Lamentations"), ("lam", "Lamentations"),
   ("eze", "Ezekiel"), ("ezek", "Ezekiel"),
   ("da", "Daniel"), ("dan", "Daniel"),
   ("ho", "Hosea"), ("hos", "Hosea"),
   ("joe", "Joel"), ("joel", "Joel"),
   ("am", "Amos"), ("amo", "Amos"), ("amos", "Amos"),
   ("ob", "Obadiah"), ("oba", "Obadiah"), ("obad", "Obadiah"),
   ("jon", "Jonah"), ("jona", "Jonah"), ("jonah", "Jonah"),
   ("mic", "Micah"), ("mi", "Micah"),
   ("na", "Nahum"), ("nah", "Nahum"),
   ("hab", "Habakkuk"),
   ("zep", "Zephaniah"), ("zeph", "Zephaniah"),
   ("hag", "Haggai"),
   ("zec", "Zechariah"), ("zech", "Zechariah"),
   ("mal", "Malachi"),
   ("mt", "Matthew"), ("mat", "Matthew"), ("matt", "Matthew"),
   ("mk", "Mark"), ("mar", "Mark"), ("mark", "Mark"),
   ("lu", "Luke"), ("luk", "Luke"), ("luke", "Luke"),
   ("joh", "John"), ("john", "John"), ("jn", "John"),
   ("ac", "Acts"), ("act", "Acts"), ("acts", "Acts"),
   ("ro", "Romans"), ("rom", "Romans"),
   ("1co", "1 Corinthians"), ("1cor", "1 Corinthians"),
   ("2co", "2 Corinthians"), ("2cor", "2 Corinthians"),
   ("ga", "Galatians"), ("gal", "Galatians"),
   ("eph", "Ephesians"),
   ("php", "Philippians"), ("phil", "Philippians"),
   ("col", "Colossians"),
   ("1th", "1 Thessalonians"), ("1thess", "1 Thessalonians"),
   ("2th", "2 Thessalonians"), ("2thess", "2 Thessalonians"),
   ("1ti", "1 Timothy"), ("1tim", "1 Timothy"),
   ("2ti", "2 Timothy"), ("2tim", "2 Timothy"),
   ("tit", "Titus"), ("titus", "Titus"),
   ("phm", "Philemon"), ("phile", "Philemon"), ("philem", "Philemon"),
   ("heb", "Hebrews"),
   ("jas", "James"), ("jam", "James"), ("james", "James"),
   ("1pe", "1 Peter"), ("1pet", "1 Peter"),
   ("2pe", "2 Peter"), ("2pet", "2 Peter"),
   ("1jo", "1 John"), ("1joh", "1 John"), ("1john", "1 John"),
   ("2jo", "2 John"), ("2joh", "2 John"), ("2john", "2 John"),
   ("3jo", "3 John"), ("3joh", "3 John"), ("3john", "3 John"),
   ("jude", "Jude"), ("jud", "Jude"),
   ("re", "Revelation"), ("rev", "Revelation")]

/-- The structured reference produced by `parse_passage_ref`. -/
structure ParsedPassage where
  book : String
  chapter : Nat
  verses : List Char
  display : List Char
deriving DecidableEq, Repr

/-- The anchored match of `re.match(r'(\d?\s*[A-Za-z]+)\s*(\d+):?([\d,\-]*)', s)`,
returning the three captured groups.  The pattern's pieces interact
deterministically: `\d?` can only help when the head is a digit (a skipped
head digit can never begin `[A-Za-z]+`), each greedy run stops at the first
character outside its class, and the classes of adjacent pieces are
disjoint, so no backtracking alternative ever differs from the greedy
parse. -/
def parse_passage_match (cs : List Char) : Option (List Char × List Char × List Char) :=
  let d : List Char :=
    match cs with
    | c :: _ => if c.isDigit then [c] else []
    | [] => []
  let rest1 := cs.drop d.length
  let ws1 := rest1.takeWhile isSp
  let rest2 := rest1.dropWhile isSp
  let letters := rest2.takeWhile Char.isAlpha
  let rest3 := rest2.dropWhile Char.isAlpha
  if letters.isEmpty then none
  else
    let rest4 := rest3.dropWhile isSp
    let digits := rest4.takeWhile Char.isDigit
    let rest5 := rest4.dropWhile Char.isDigit
    if digits.isEmpty then none
    else
      let rest6 :=
        match rest5 with
        | ':' :: r => r
        | r => r
      let verses := rest6.takeWhile (fun c => c.isDigit || c = ',' || c = '-')
      some (d ++ ws1 ++ letters, digits, verses)

/-- `parse_passage_ref` from `preprocess.py`: normalize a raw passage token
into a `ParsedPassage`, or `none` ("unparseable"). -/
def parse_passage_ref (passage_str : List Char) : Option ParsedPassage :=
  let s := pyStrip (replaceChar '+' ' ' passage_str)
  match parse_passage_match s with
  | none => none
  | some (g1, g2, g3) =>
    let book_abbr := String.mk ((g1.map Char.toLower).filter (fun c => c ≠ ' '))
    match pyDictGet PASSAGE_BOOK_MAP book_abbr with
    | none => none
    | some book_name =>
      some { book := book_name
           , chapter := digitsVal g2
           , verses := g3
           , display := book_name.toList ++ ' ' :: g2 ++
               (if g3.isEmpty then [] else ':' :: g3) }

/-- A markup token: either the content between `<` and `>` (exclusive), or a
run of text data. -/
inductive HTok where
  | tag : List Char → HTok
  | data : List Char → HTok
deriving DecidableEq, Repr

/-- Modelled from the spec: the tag/text tokenization that Python's stdlib
`html.parser.HTMLParser` performs when driving `HTMLTextExtractor` is not
part of this repository; per spec 4.1 the extractor concatenates all
non-markup text segments, so markup is tokenized as `<`...`>` tag spans
(an unterminated trailing tag is consumed silently) and everything between
tags is a data segment. -/
def tokenizeHtmlAux : Nat → List Char → List HTok
  | 0, _ => []
  | fuel + 1, s =>
    match s with
    | [] => []
    | c :: t =>
      if c = '<' then
        match t.dropWhile (fun x => x ≠ '>') with
        | [] => [HTok.tag (t.takeWhile (fun x => x ≠ '>'))]
        | _ :: rest =>
          HTok.tag (t.takeWhile (fun x => x ≠ '>')) :: tokenizeHtmlAux fuel rest
      else
        HTok.data ((c :: t).takeWhile (fun x => x ≠ '<')) ::
          tokenizeHtmlAux fuel (t.dropWhile (fun x => x ≠ '<'))

def tokenizeHtml (s : List Char) : List HTok := tokenizeHtmlAux s.length s

/-- Lower-cased leading alphabetic run of a tag's content: the tag name as
`HTMLParser` reports it. -/
def tagNameOf (content : List Char) : List Char :=
  (content.takeWhile Char.isAlpha).map Char.toLower

/-- Does this tag content denote a start tag with the given name? -/
def isStartTagOf (content nm : List Char) : Bool :=
  match content with
  | [] => false
  | c :: _ => c ≠ '/' && tagNameOf content = nm

/-- Does this tag content denote an end tag with the given name? -/
def isEndTagOf (content nm : List Char) : Bool :=
  match content with
  | '/' :: rest => tagNameOf rest = nm
  | _ => false

/-- The token-stream walk of `HTMLTextExtractor`: `handle_starttag` /
`handle_endtag` toggle the `in_script` / `in_style` flags, `handle_data`
collects the segment when neither flag is set. -/
def extractorRun : List HTok → Bool → Bool → List (List Char)
  | [], _, _ => []
  | HTok.data d :: ts, sc, st =>
    if sc || st then extractorRun ts sc st else d :: extractorRun ts sc st
  | HTok.tag c :: ts, sc, st =>
    if isStartTagOf c ("script".toList) then extractorRun ts true st
    else if isStartTagOf c ("style".toList) then extractorRun ts sc true
    else if isEndTagOf c ("script".toList) then extractorRun ts false st
    else if isEndTagOf c ("style".toList) then extractorRun ts sc false
    else extractorRun ts sc st

/-- `' '.join(parts)`. -/
def joinParts : List (List Char) → List Char
  | [] => []
  | [p] => p
  | p :: ps => p ++ ' ' :: joinParts ps

/-- `HTMLTextExtractor.get_text()`: `' '.join(self.text_parts)` over a full
feed of the input. -/
def extractorText (s : List Char) : List Char :=
  joinParts (extractorRun (tokenizeHtml s) false false)

/-- Decision of the first occurrence split: `afterFirstGt l` is the suffix
immediately after the first `'>'` of `l`, if any. -/
def afterFirstGt (l : List Char) : Option (List Char) :=
  match l.dropWhile (fun x => x ≠ '>') with
  | [] => none
  | _ :: r => some r

/-- Match of `<[^>]+>` starting right after a `'<'`: succeeds iff the next
character exists and is not `'>'` and a closing `'>'` occurs; returns the
suffix after that first `'>'`. -/
def tagSplit (t : List Char) : Option (List Char) :=
  match t with
  | [] => none
  | c :: _ => if c = '>' then none else afterFirstGt t

/-- `re.sub(r'<[^>]+>', '', s)`: leftmost, non-overlapping deletion of every
angle-bracket tag span, with enough fuel (`s.length` always suffices since
every step consumes at least one character). -/
def stripTagsAux : Nat → List Char → List Char
  | 0, s => s
  | _ + 1, [] => []
  | fuel + 1, c :: t =>
    if c = '<' then
      match tagSplit t with
      | some rest => stripTagsAux fuel rest
      | none => c :: stripTagsAux fuel t
    else c :: stripTagsAux fuel t

def stripTags (s : List Char) : List Char := stripTagsAux s.length s

/-- Suffix immediately after the first case-insensitive occurrence of `pat`
(the action of a non-greedy `.*?pat` with `re.DOTALL`). -/
def dropThroughCI (pat : List Char) : List Char → Option (List Char)
  | [] => none
  | c :: t =>
    if ciPrefix pat (c :: t) then some ((c :: t).drop pat.length)
    else dropThroughCI pat t

/-- First point after a given character, with the run before it:
used for `[^x]*x` pieces of the concrete patterns. -/
def splitAtChar (ch : Char) (s : List Char) : Option (List Char × List Char) :=
  match s.dropWhile (fun x => x ≠ ch) with
  | [] => none
  | _ :: rest => some (s.takeWhile (fun x => x ≠ ch), rest)

/-- `re.sub(openPat + r'[^>]*>.*?' + closePat, '', s)` with
`re.DOTALL | re.IGNORECASE` (the script/style block deletion of the
`strip_html` fallback), fueled; `s.length` fuel always suffices. -/
def removeBlocksCI (openPat closePat : List Char) : Nat → List Char → List Char
  | 0, s => s
  | _ + 1, [] => []
  | fuel + 1, c :: t =>
    if ciPrefix openPat (c :: t) then
      match splitAtChar '>' ((c :: t).drop openPat.length) with
      | none => c :: removeBlocksCI openPat closePat fuel t
      | some (_, rest1) =>
        match dropThroughCI closePat rest1 with
        | none => c :: removeBlocksCI openPat closePat fuel t
        | some rest2 => removeBlocksCI openPat closePat fuel rest2
    else c :: removeBlocksCI openPat closePat fuel t

/-- The regex fallback path of `strip_html` (its `except:` branch): delete
script blocks, then style blocks, then every remaining tag span. -/
def strip_html_fallback (s : List Char) : List Char :=
  let t1 := removeBlocksCI ("<script".toList) ("</script>".toList) s.length s
  let t2 := removeBlocksCI ("<style".toList) ("</style>".toList) t1.length t1
  stripTags t2

/-- Modelled from the spec: `HTMLParser.feed` is stdlib code outside this
repository; per spec 4.1 the structured parse "must never raise", so in
this model feeding always succeeds.  The `try`/`except` dispatch of
`strip_html` is kept explicitly. -/
def html_feed (s : List Char) : Except Unit (List Char) :=
  Except.ok (extractorText s)

/-- `strip_html` from `preprocess.py`: the parser path, with the regex
fallback on parse failure. -/
def strip_html (s : List Char) : List Char :=
  match html_feed s with
  | Except.ok t => t
  | Except.error _ => strip_html_fallback s

/-- Does the string contain a `<[^>]+>` tag span? -/
def tagCloses (t : List Char) : Bool :=
  match t with
  | [] => false
  | d :: t' => d ≠ '>' && t'.contains '>'

def hasTagSpanB : List Char → Bool
  | [] => false
  | c :: t => (c = '<' && tagCloses t) || hasTagSpanB t

/-- Case-insensitive literal-prefix requirement: on success, return the
suffix after the pattern. -/
def reqCI (pat s : List Char) : Option (List Char) :=
  if ciPrefix pat s then some (s.drop pat.length) else none

/-- The split of `s` at the last case-insensitive occurrence of `pat` that
is followed by a nonempty remainder, as `(prefix, remainder)`.  This is
what the backtracking of `[^"]*passage=([^"&]+)` commits to inside the
quote-free span: the greedy `[^"]*` tries later occurrences first, and an
occurrence with an empty remainder cannot satisfy `([^"&]+)`. -/
def lastSplitNE (pat : List Char) : List Char → Option (List Char × List Char)
  | [] => none
  | c :: rest =>
    match lastSplitNE pat rest with
    | some (p, suf) => some (c :: p, suf)
    | none =>
      if ciPrefix pat (c :: rest) && !((c :: rest).drop pat.length).isEmpty then
        some ([], (c :: rest).drop pat.length)
      else none

/-- One attempted match of the reference-link pattern
`<A\s+HREF="[^"]*passage=([^"&]+)"[^>]*>([^<]+)</A>` (IGNORECASE) at the
head of `s`; on success returns (group 1, group 2, suffix after the match).
Each piece is deterministic: the greedy character-class runs stop at the
first character outside their class, and the only genuine backtracking —
`[^"]*` against `passage=([^"&]+)"` — resolves to the last occurrence of
`passage=` with a nonempty `&`-free remainder reaching the closing quote
(an `&` after any occurrence also follows every earlier occurrence, so no
earlier alternative can succeed either). -/
def matchAnchorAt (s : List Char) : Option (List Char × List Char × List Char) :=
  match reqCI ("<a".toList) s with
  | none => none
  | some s1 =>
    if (s1.takeWhile isSp).isEmpty then none
    else
      match reqCI ("href=\"".toList) (s1.dropWhile isSp) with
      | none => none
      | some s3 =>
        match splitAtChar '"' s3 with
        | none => none
        | some (q, s4) =>
          match lastSplitNE ("passage=".toList) q with
          | none => none
          | some (_, tok) =>
            if tok.contains '&' then none
            else
              match splitAtChar '>' s4 with
              | none => none
              | some (_, s5) =>
                let disp := s5.takeWhile (fun x => x ≠ '<')
                if disp.isEmpty then none
                else
                  match reqCI ("</a>".toList) (s5.dropWhile (fun x => x ≠ '<')) with
                  | none => none
                  | some s7 => some (tok, disp, s7)

/-- `re.finditer` of the reference-link pattern: try a match at each
position, emit its groups and continue after the match, else step one
character; fueled, with `s.length` fuel always sufficient because a match
consumes at least one character. -/
def scanRefsAux : Nat → List Char → List (List Char × List Char)
  | 0, _ => []
  | fuel + 1, s =>
    match matchAnchorAt s with
    | some (t, d, rest) => (t, d) :: scanRefsAux fuel rest
    | none =>
      match s with
      | [] => []
      | _ :: tail => scanRefsAux fuel tail

/-- The reference-anchor scanner of `extract_references_with_context`
(document-order `finditer` of the pattern on the raw markup). -/
def scanRefs (s : List Char) : List (List Char × List Char) := scanRefsAux s.length s

/-- The split of `s` at the first case-insensitive occurrence of `pat`. -/
def firstSplitCI (pat : List Char) : List Char → Option (List Char × List Char)
  | [] => if ciPrefix pat [] then some ([], []) else none
  | c :: t =>
    if ciPrefix pat (c :: t) then some ([], (c :: t).drop pat.length)
    else (firstSplitCI pat t).map (fun pr => (c :: pr.1, pr.2))

/-- Is there a case-insensitive occurrence of `pat` in `s`? -/
def containsCI (pat s : List Char) : Bool := (firstSplitCI pat s).isSome

/-- Modelled from the spec: the Reference Anchor Scanner as spec 4.2 words
it — every anchor element whose link target carries a passage query
parameter yields (token up to the next `&` or closing quote, display text
possibly containing nested inline markup, running to the anchor's closing
tag), in document order; anchors without a passage parameter are ignored.
This is the spec-side reading that claim C1 asserts the code realizes. -/
def specScanAux : Nat → List Char → List (List Char × List Char)
  | 0, _ => []
  | fuel + 1, s =>
    match firstSplitCI ("<a ".toList) s with
    | none => []
    | some (_, afterOpen) =>
      match splitAtChar '>' afterOpen with
      | none => []
      | some (attrs, afterGt) =>
        let withTok :=
          match firstSplitCI ("href=\"".toList) attrs with
          | none => none
          | some (_, urlPlus) =>
            match firstSplitCI ("passage=".toList) (urlPlus.takeWhile (fun x => x ≠ '"')) with
            | none => none
            | some (_, rest) => some (rest.takeWhile (fun x => x ≠ '&'))
        match withTok with
        | none => specScanAux fuel afterGt
        | some tok =>
          match firstSplitCI ("</a>".toList) afterGt with
          | none => specScanAux fuel afterGt
          | some (disp, rest2) => (tok, disp) :: specScanAux fuel rest2

def specScanRefs (s : List Char) : List (List Char × List Char) :=
  specScanAux s.length s

/-- The half-window size: the `context_chars=200` default of
`extract_references_with_context`. -/
def context_chars : Nat := 200

/-- Characters treated as word/sentence boundaries by the context window
extension loops. -/
def boundaryChar (c : Char) : Bool := c = ' ' || c = '.' || c = '\n'

/-- `while start > 0 and text_content[start] not in ' .\n': start -= 1`. -/
def extendStart (T : List Char) : Nat → Nat
  | 0 => 0
  | s + 1 => if boundaryChar (T.getD (s + 1) ' ') then s + 1 else extendStart T s

/-- Fueled helper for `extendEnd`; `T.length` fuel always suffices since the
loop stops at `T.length`. -/
def extendEndAux (T : List Char) : Nat → Nat → Nat
  | 0, e => e
  | fuel + 1, e =>
    if e < T.length then
      if boundaryChar (T.getD e ' ') then e else extendEndAux T fuel (e + 1)
    else e

/-- `while end < len(text_content) and text_content[end] not in ' .\n': end += 1`. -/
def extendEnd (T : List Char) (e : Nat) : Nat := extendEndAux T T.length e

/-- The Context Window Locator block of `extract_references_with_context`:
find the cleaned display text in the normalized document text; on success
carve the word-aligned window with `'...'` markers, otherwise fall back to
the raw display text. -/
def find_context (T dispClean dispRaw : List Char) : List Char :=
  match pyFind T dispClean with
  | none => dispRaw
  | some pos =>
    let start := extendStart T (pos - context_chars)
    let e := extendEnd T (min T.length (pos + dispClean.length + context_chars))
    let ctx := pyStrip ((T.drop start).take (e - start))
    let ctx2 := if 0 < start then '.' :: '.' :: '.' :: ctx else ctx
    if e < T.length then ctx2 ++ ['.', '.', '.'] else ctx2

/-- One extracted cross-reference record. -/
structure Reference where
  ref : ParsedPassage
  display : List Char
  context : List Char
deriving DecidableEq, Repr

/-- The per-match body of the `for match in re.finditer(...)` loop of
`extract_references_with_context`: unparseable tokens are skipped
(`continue`), parsed ones get a context and are appended. -/
def refLoop (T : List Char) : List (List Char × List Char) → List Reference
  | [] => []
  | (tok, disp) :: rest =>
    match parse_passage_ref tok with
    | none => refLoop T rest
    | some p =>
      let d := pyStrip disp
      { ref := p, display := d
      , context := find_context T (normWs (strip_html d)) d } :: refLoop T rest

/-- `extract_references_with_context` from `preprocess.py`. -/
def extract_references_with_context (html : List Char) : List Reference :=
  refLoop (normWs (strip_html html)) (scanRefs html)

/-- One book's structure entry: canonical name plus chapter list. -/
structure BookEntry where
  name : String
  chapters : List Nat
deriving DecidableEq, Repr

/-- `get_book_code`: `re.match(r'MHC(\d{2})', filename)` (case-sensitive),
defaulting to "00". -/
def get_book_code (filename : List Char) : List Char :=
  match filename with
  | 'M' :: 'H' :: 'C' :: d1 :: d2 :: _ =>
    if d1.isDigit && d2.isDigit then [d1, d2] else ['0', '0']
  | _ => ['0', '0']

/-- `get_chapter_from_filename`:
`re.match(r'MHC\d{2}(\d{3})\.HTM', filename, re.IGNORECASE)`, defaulting
to 0. -/
def get_chapter_from_filename (filename : List Char) : Nat :=
  match filename with
  | m :: h :: c :: d1 :: d2 :: e1 :: e2 :: e3 :: dot :: x1 :: x2 :: x3 :: _ =>
    if ciEq m 'm' && ciEq h 'h' && ciEq c 'c' && d1.isDigit && d2.isDigit &&
       e1.isDigit && e2.isDigit && e3.isDigit && dot = '.' &&
       ciEq x1 'h' && ciEq x2 't' && ciEq x3 'm' then
      digitsVal [e1, e2, e3]
    else 0
  | _ => 0

def lookupEntry (st : List (List Char × BookEntry)) (code : List Char) :
    Option BookEntry :=
  (st.find? (fun pr => pr.1 = code)).map (fun pr => pr.2)

def addChapter (st : List (List Char × BookEntry)) (code : List Char) (ch : Nat) :
    List (List Char × BookEntry) :=
  st.map (fun pr =>
    if pr.1 = code then (pr.1, { pr.2 with chapters := pr.2.chapters ++ [ch] })
    else pr)

/-- One iteration of the `for filepath in htm_files` loop of
`build_book_structure`. -/
def build_step (st : List (List Char × BookEntry)) (filename : List Char) :
    List (List Char × BookEntry) :=
  let code := get_book_code filename
  let ch := get_chapter_from_filename filename
  let st1 :=
    if (lookupEntry st code).isSome then st
    else st ++ [(code, { name := pyDictGetD BOOKS (String.mk code) "Unknown"
                       , chapters := [] })]
  match lookupEntry st1 code with
  | some e => if 0 < ch ∧ ch ∉ e.chapters then addChapter st1 code ch else st1
  | none => st1

/-- `build_book_structure` from `preprocess.py`: accumulate entries over the
filenames, then sort each chapter list ascending. -/
def build_book_structure (files : List (List Char)) : List (List Char × BookEntry) :=
  (files.foldl build_step []).map
    (fun pr => (pr.1, { pr.2 with chapters := pr.2.chapters.insertionSort (· ≤ ·) }))

/-- Well-formedness of an abbreviation key as it sits in `PASSAGE_BOOK_MAP`:
an optional leading digit followed by a nonempty run of letters, no
whitespace, no `'+'`, already lower-case.  Checked by evaluation for every
key of the table; these are exactly the facts the parser trace needs. -/
def abbrOk (k : List Char) : Bool :=
  k.all (fun x => !isSp x && x ≠ '+' && (x.toLower = x) && x ≠ ' ') &&
    (match k with
     | [] => false
     | c :: rest =>
       if c.isDigit then !rest.isEmpty && rest.all Char.isAlpha
       else (c :: rest).all Char.isAlpha)

/-- The canonical anchor shape of the amended claim C1: `HREF` is the first
attribute, double-quoted, with the passage parameter extending to the
closing quote, and a display free of nested markup. -/
def anchorStr (pre t d : List Char) : List Char :=
  ("<A HREF=\"").toList ++ pre ++ ("passage=").toList ++ t ++
    ("\">").toList ++ d ++ ("</A>").toList

/-- The 404-character document text of the claim C2 counterexample: all `'a'`
except a sentence boundary `'.'` at indices 1 and 402 and the matched
display text `'Q'` at index 201. -/
def T2cex : List Char :=
  (((List.replicate 404 'a').set 1 '.').set 201 'Q').set 402 '.'

theorem takeWhile_append_of_all {α : Type} (p : α → Bool) (l l' : List α)
    (h : ∀ c ∈ l, p c = true) :
    (l ++ l').takeWhile p = l ++ l'.takeWhile p := by
  induction l with
  | nil => simp
  | cons c t ih =>
    have hc := h c (by simp)
    simp only [List.cons_append, List.takeWhile_cons, hc, if_true]
    rw [ih (fun x hx => h x (by simp [hx]))]

theorem dropWhile_append_of_all {α : Type} (p : α → Bool) (l l' : List α)
    (h : ∀ c ∈ l, p c = true) :
    (l ++ l').dropWhile p = l'.dropWhile p := by
  induction l with
  | nil => simp
  | cons c t ih =>
    have hc := h c (by simp)
    simp only [List.cons_append, List.dropWhile_cons, hc, if_true]
    exact ih (fun x hx => h x (by simp [hx]))

theorem takeWhile_eq_nil_of_head {α : Type} (p : α → Bool) (c : α) (t : List α)
    (h : p c = false) : (c :: t).takeWhile p = [] := by
  simp [List.takeWhile_cons, h]

theorem dropWhile_cons_of_neg {α : Type} (p : α → Bool) (c : α) (t : List α)
    (h : p c = false) : (c :: t).dropWhile p = c :: t := by
  simp [List.dropWhile_cons, h]

theorem isSp_false_of_isDigit (c : Char) (h : c.isDigit = true) : isSp c = false := by
  by_contra hne
  have hs : isSp c = true := by revert hne; cases isSp c <;> simp
  simp only [isSp, Bool.or_eq_true, decide_eq_true_eq] at hs
  rcases hs with ((((h1 | h2) | h3) | h4) | h5) | h6 <;> subst_vars <;>
    exact absurd h (by decide)

theorem ne_plus_of_isDigit (c : Char) (h : c.isDigit = true) : c ≠ '+' := by
  rintro rfl; exact absurd h (by decide)

theorem toNat_bounds_of_isDigit (c : Char) (h : c.isDigit = true) :
    48 ≤ c.toNat ∧ c.toNat ≤ 57 := by
  simp [Char.isDigit] at h
  exact h

theorem eq_zero_char_of_toNat (c : Char) (h : c.toNat = 48) : c = '0' :=
  Char.eq_of_val_eq (UInt32.ext h)

theorem digitChar_isDigit (m : Nat) (h : m < 10) :
    (Char.ofNat (48 + m)).isDigit = true := by
  interval_cases m <;> decide

theorem natDigitsAux_all_digit (fuel n : Nat) :
    ∀ c ∈ natDigitsAux fuel n, c.isDigit = true := by
  induction fuel generalizing n with
  | zero =>
    intro c hc
    simp only [natDigitsAux, List.mem_singleton] at hc
    subst hc
    exact digitChar_isDigit _ (Nat.mod_lt _ (by omega))
  | succ fuel ih =>
    intro c hc
    simp only [natDigitsAux] at hc
    split at hc
    · simp only [List.mem_singleton] at hc
      subst hc
      exact digitChar_isDigit _ (by omega)
    · rcases List.mem_append.mp hc with h1 | h2
      · exact ih _ _ h1
      · simp only [List.mem_singleton] at h2
        subst h2
        exact digitChar_isDigit _ (Nat.mod_lt _ (by omega))

theorem natDigits_all_digit (n : Nat) : ∀ c ∈ natDigits n, c.isDigit = true :=
  natDigitsAux_all_digit n n

theorem natDigitsAux_ne_nil (fuel n : Nat) : natDigitsAux fuel n ≠ [] := by
  cases fuel with
  | zero => simp [natDigitsAux]
  | succ fuel =>
    simp only [natDigitsAux]
    split
    · simp
    · simp

theorem natDigits_ne_nil (n : Nat) : natDigits n ≠ [] := natDigitsAux_ne_nil n n

theorem takeWhile_eq_self_of_all {α : Type} (p : α → Bool) (l : List α)
    (h : ∀ c ∈ l, p c = true) : l.takeWhile p = l := by
  induction l with
  | nil => rfl
  | cons c t ih =>
    simp only [List.takeWhile_cons, h c (by simp), if_true]
    rw [ih (fun x hx => h x (by simp [hx]))]

theorem dropWhile_eq_nil_of_all {α : Type} (p : α → Bool) (l : List α)
    (h : ∀ c ∈ l, p c = true) : l.dropWhile p = [] := by
  induction l with
  | nil => rfl
  | cons c t ih =>
    simp only [List.dropWhile_cons, h c (by simp), if_true]
    exact ih (fun x hx => h x (by simp [hx]))

theorem map_eq_self_of (f : Char → Char) (l : List Char) (h : ∀ x ∈ l, f x = x) :
    l.map f = l := by
  induction l with
  | nil => rfl
  | cons c t ih =>
    simp only [List.map_cons, h c (by simp)]
    rw [ih (fun x hx => h x (by simp [hx]))]

theorem replaceChar_eq_self (old nw : Char) (s : List Char) (h : ∀ c ∈ s, c ≠ old) :
    replaceChar old nw s = s := by
  induction s with
  | nil => rfl
  | cons c t ih =>
    simp only [replaceChar, List.map_cons] at ih ⊢
    rw [if_neg (h c (by simp)), ih (fun x hx => h x (by simp [hx]))]

theorem dropWhile_eq_self_of_head (p : Char → Bool) (s : List Char)
    (h : ∀ hne : s ≠ [], p (s.head hne) = false) : s.dropWhile p = s := by
  cases s with
  | nil => rfl
  | cons c t => exact dropWhile_cons_of_neg p c t (h (by simp))

theorem pyStrip_eq_self (s : List Char)
    (h1 : ∀ hne : s ≠ [], isSp (s.head hne) = false)
    (h2 : ∀ hne : s ≠ [], isSp (s.getLast hne) = false) :
    pyStrip s = s := by
  have hd : s.dropWhile isSp = s := dropWhile_eq_self_of_head isSp s h1
  have hr : s.reverse.dropWhile isSp = s.reverse := by
    apply dropWhile_eq_self_of_head
    intro hne
    have hsne : s ≠ [] := by simpa using hne
    have hlast := h2 hsne
    rwa [List.getLast_eq_head_reverse hsne] at hlast
  unfold pyStrip
  rw [hd, hr, List.reverse_reverse]

theorem abbrOk_props (k : List Char) (hk : abbrOk k = true) :
    (∀ x ∈ k, isSp x = false ∧ x ≠ '+' ∧ x.toLower = x ∧ x ≠ ' ') ∧
    ((∃ c rest, k = c :: rest ∧ c.isDigit = true ∧ rest ≠ [] ∧
        (∀ x ∈ rest, x.isAlpha = true)) ∨
     (∃ c rest, k = c :: rest ∧ c.isDigit = false ∧
        (∀ x ∈ k, x.isAlpha = true))) := by
  cases k with
  | nil => simp [abbrOk] at hk
  | cons c rest =>
    simp only [abbrOk, Bool.and_eq_true, List.all_eq_true] at hk
    obtain ⟨hall, hshape⟩ := hk
    constructor
    · intro x hx
      have := hall x hx
      simp only [Bool.and_eq_true, Bool.not_eq_true', decide_eq_true_eq] at this
      exact ⟨this.1.1.1, this.1.1.2, this.1.2, this.2⟩
    · by_cases hc : c.isDigit = true
      · left
        rw [if_pos hc] at hshape
        simp only [Bool.and_eq_true, Bool.not_eq_true', List.all_eq_true] at hshape
        refine ⟨c, rest, rfl, hc, ?_, hshape.2⟩
        intro hrnil
        rw [hrnil] at hshape
        exact absurd hshape.1 (by decide)
      · right
        rw [if_neg hc] at hshape
        simp only [List.all_eq_true] at hshape
        exact ⟨c, rest, rfl, by simpa using hc, hshape⟩

theorem parse_passage_match_token (k ds : List Char)
    (hk : abbrOk k = true) (hne : ds ≠ []) (hdig : ∀ c ∈ ds, c.isDigit = true) :
    parse_passage_match (k ++ ' ' :: ds) = some (k, ds, []) := by
  obtain ⟨hall, hshape⟩ := abbrOk_props k hk
  have hds_take : ds.takeWhile Char.isDigit = ds :=
    takeWhile_eq_self_of_all _ ds hdig
  have hds_drop : ds.dropWhile Char.isDigit = [] :=
    dropWhile_eq_nil_of_all _ ds hdig
  have hds_sp : (' ' :: ds).dropWhile isSp = ds := by
    rw [List.dropWhile_cons, if_pos (by decide)]
    apply dropWhile_eq_self_of_head
    intro hne'
    exact isSp_false_of_isDigit _ (hdig _ (List.head_mem hne'))
  have hdse : (ds.isEmpty) = false := by
    cases ds with
    | nil => exact absurd rfl hne
    | cons a b => rfl
  rcases hshape with ⟨c, rest, hkv, hc, hrne, hralpha⟩ | ⟨c, rest, hkv, hc, hkalpha⟩
  · -- leading digit, then letters
    subst hkv
    obtain ⟨r0, rest', hrv⟩ := List.exists_cons_of_ne_nil hrne
    subst hrv
    have hr0sp : isSp r0 = false := (hall r0 (by simp)).1
    have halpha_app :
        ((r0 :: rest') ++ ' ' :: ds).takeWhile Char.isAlpha = r0 :: rest' := by
      rw [takeWhile_append_of_all _ _ _ hralpha,
        takeWhile_eq_nil_of_head _ _ _ (by decide), List.append_nil]
    have halpha_drop :
        ((r0 :: rest') ++ ' ' :: ds).dropWhile Char.isAlpha = ' ' :: ds := by
      rw [dropWhile_append_of_all _ _ _ hralpha,
        dropWhile_cons_of_neg _ _ _ (by decide)]
    simp only [List.cons_append] at halpha_app halpha_drop
    simp only [parse_passage_match, List.cons_append, hc, if_true,
      List.length_singleton, List.drop_succ_cons, List.drop_zero]
    rw [takeWhile_eq_nil_of_head _ _ _ hr0sp, dropWhile_cons_of_neg _ _ _ hr0sp,
      halpha_app, halpha_drop]
    simp only [List.isEmpty_cons, Bool.false_eq_true, if_false, hds_sp,
      hds_take, hds_drop, hdse]
    simp
  · -- letters only
    subst hkv
    have hcsp : isSp c = false := (hall c (by simp)).1
    have halpha_app :
        ((c :: rest) ++ ' ' :: ds).takeWhile Char.isAlpha = c :: rest := by
      rw [takeWhile_append_of_all _ _ _ hkalpha,
        takeWhile_eq_nil_of_head _ _ _ (by decide), List.append_nil]
    have halpha_drop :
        ((c :: rest) ++ ' ' :: ds).dropWhile Char.isAlpha = ' ' :: ds := by
      rw [dropWhile_append_of_all _ _ _ hkalpha,
        dropWhile_cons_of_neg _ _ _ (by decide)]
    simp only [List.cons_append] at halpha_app halpha_drop
    simp only [parse_passage_match, List.cons_append, hc, Bool.false_eq_true, if_false,
      List.length_nil, List.drop_zero]
    rw [takeWhile_eq_nil_of_head _ _ _ hcsp, dropWhile_cons_of_neg _ _ _ hcsp,
      halpha_app, halpha_drop]
    simp only [List.isEmpty_cons, Bool.false_eq_true, if_false, hds_sp,
      hds_take, hds_drop, hdse]
    simp

theorem parse_passage_ref_token (k : List Char) (b : String) (ds : List Char)
    (hk : abbrOk k = true)
    (hb : pyDictGet PASSAGE_BOOK_MAP (String.mk k) = some b)
    (hne : ds ≠ []) (hdig : ∀ c ∈ ds, c.isDigit = true) :
    parse_passage_ref (k ++ ' ' :: ds) =
      some { book := b, chapter := digitsVal ds, verses := []
           , display := b.toList ++ ' ' :: ds } := by
  obtain ⟨hall, hshape⟩ := abbrOk_props k hk
  obtain ⟨c, rest, hkv⟩ : ∃ c rest, k = c :: rest := by
    rcases hshape with ⟨c, r, hv, -, -, -⟩ | ⟨c, r, hv, -, -⟩ <;> exact ⟨c, r, hv⟩
  have hcsp : isSp c = false := (hall c (by rw [hkv]; simp)).1
  have hrep : replaceChar '+' ' ' (k ++ ' ' :: ds) = k ++ ' ' :: ds := by
    apply replaceChar_eq_self
    intro x hx
    rcases List.mem_append.mp hx with h | h
    · exact (hall x h).2.1
    · rcases List.mem_cons.mp h with h | h
      · subst h; decide
      · exact ne_plus_of_isDigit x (hdig x h)
  have hstrip : pyStrip (k ++ ' ' :: ds) = k ++ ' ' :: ds := by
    apply pyStrip_eq_self
    · intro hne'
      have hh : (k ++ ' ' :: ds).head hne' = c := by
        subst hkv
        rw [List.head_append]
        simp
      rw [hh]
      exact hcsp
    · intro hne'
      have hh : (k ++ ' ' :: ds).getLast hne' = (' ' :: ds).getLast (by simp) := by
        rw [List.getLast_append]
        simp
      rw [hh, List.getLast_cons hne]
      exact isSp_false_of_isDigit _ (hdig _ (List.getLast_mem hne))
  have hmap : k.map Char.toLower = k :=
    map_eq_self_of _ _ (fun x hx => (hall x hx).2.2.1)
  have hfil : (k.filter (fun x => x ≠ ' ')) = k :=
    List.filter_eq_self.mpr (fun a ha => by
      simp only [decide_eq_true_eq]
      exact (hall a ha).2.2.2)
  simp only [parse_passage_ref]
  rw [hrep, hstrip, parse_passage_match_token _ _ hk hne hdig]
  simp only [hmap, hfil, hb]
  simp

theorem foldl_pyDict_some (m : List (String × String)) (k : String) (v : String) :
    (m.foldl (fun acc kv => if kv.1 = k then some kv.2 else acc) (some v)).isSome
      = true := by
  induction m generalizing v with
  | nil => rfl
  | cons kv m ih =>
    rw [List.foldl_cons]
    by_cases h : kv.1 = k
    · rw [if_pos h]; exact ih _
    · rw [if_neg h]; exact ih _

theorem pyDictGet_isSome_of_mem (m : List (String × String)) (k v : String)
    (h : (k, v) ∈ m) : (pyDictGet m k).isSome = true := by
  induction m with
  | nil => simp at h
  | cons kv m ih =>
    simp only [pyDictGet] at ih ⊢
    rw [List.foldl_cons]
    rcases List.mem_cons.mp h with h1 | h1
    · rw [← h1]
      simp only [if_pos rfl]
      exact foldl_pyDict_some m k v
    · by_cases hq : kv.1 = k
      · rw [if_pos hq]; exact foldl_pyDict_some m k kv.2
      · rw [if_neg hq]; exact ih h1

/-- C4: for every abbreviation key of the AbbreviationTable and every chapter
number from 1 to 200, parsing the token "<abbr> <chapter>" succeeds and the
result's book field equals the canonical book name the table (as a Python
dict, where later duplicate entries overwrite earlier ones) maps that
abbreviation to. -/
theorem claim_C4 (k b : String) (hmem : (k, b) ∈ PASSAGE_BOOK_MAP)
    (c : Nat) (h1 : 1 ≤ c) (h2 : c ≤ 200) :
    ∃ p : ParsedPassage,
      parse_passage_ref (k.toList ++ ' ' :: natDigits c) = some p ∧
      pyDictGet PASSAGE_BOOK_MAP k = some p.book := by
  have hols : PASSAGE_BOOK_MAP.all (fun kv => abbrOk kv.1.toList) = true := by decide
  have hok : abbrOk k.toList = true := List.all_eq_true.mp hols (k, b) hmem
  obtain ⟨v, hv⟩ := Option.isSome_iff_exists.mp (pyDictGet_isSome_of_mem _ _ _ hmem)
  have hmk : String.mk k.toList = k := rfl
  refine ⟨_, parse_passage_ref_token k.toList v (natDigits c) hok ?_
      (natDigits_ne_nil c) (natDigits_all_digit c), ?_⟩
  · rw [hmk]; exact hv
  · rw [hv]

/-- Witness for C4: key "lu", chapter 23 (end-to-end scenario 2 of the
spec). -/
theorem claim_C4_witness :
    ∃ p : ParsedPassage,
      parse_passage_ref (("lu").toList ++ ' ' :: natDigits 23) = some p ∧
      pyDictGet PASSAGE_BOOK_MAP "lu" = some p.book :=
  claim_C4 "lu" "Luke" (by decide) 23 (by decide) (by decide)

/-- C10: for every chapter number at least 1, the ambiguous abbreviation
"jud" resolves to "Jude" — the later of the two table declarations wins —
and never to "Judges". -/
theorem claim_C10 (c : Nat) (h1 : 1 ≤ c) :
    ∃ p : ParsedPassage,
      parse_passage_ref (("jud").toList ++ ' ' :: natDigits c) = some p ∧
      p.book = "Jude" ∧ p.book ≠ "Judges" :=
  ⟨_, parse_passage_ref_token (("jud").toList) "Jude" (natDigits c)
      (by decide) (by decide) (natDigits_ne_nil c) (natDigits_all_digit c),
    rfl, by show ("Jude" : String) ≠ "Judges"; decide⟩

/-- Witness for C10 at chapter 5. -/
theorem claim_C10_witness :
    ∃ p : ParsedPassage,
      parse_passage_ref (("jud").toList ++ ' ' :: natDigits 5) = some p ∧
      p.book = "Jude" ∧ p.book ≠ "Judges" :=
  claim_C10 5 (by decide)

theorem parse_passage_match_groups (cs g1 g2 g3 : List Char)
    (h : parse_passage_match cs = some (g1, g2, g3)) :
    (∀ c ∈ g2, c.isDigit = true) ∧ g2 ≠ [] := by
  simp only [parse_passage_match] at h
  split at h
  · exact absurd h (by simp)
  · split at h
    · exact absurd h (by simp)
    · rename_i hde
      simp only [Option.some.injEq, Prod.mk.injEq] at h
      obtain ⟨-, hg2, -⟩ := h
      subst hg2
      refine ⟨fun c hc => List.mem_takeWhile_imp hc, ?_⟩
      intro hnil
      rw [hnil] at hde
      exact hde rfl

theorem digitVal_eq_zero_iff (c : Char) (h : c.isDigit = true) :
    digitVal c = 0 ↔ c = '0' := by
  constructor
  · intro h0
    obtain ⟨hlo, hhi⟩ := toNat_bounds_of_isDigit c h
    apply eq_zero_char_of_toNat
    unfold digitVal at h0
    omega
  · rintro rfl; rfl

theorem digitsVal_foldl_zero_iff (l : List Char) (h : ∀ c ∈ l, c.isDigit = true) :
    ∀ a : Nat, (l.foldl (fun a c => a * 10 + digitVal c) a = 0 ↔
      a = 0 ∧ ∀ c ∈ l, c = '0') := by
  induction l with
  | nil => intro a; simp
  | cons c t ih =>
    intro a
    rw [List.foldl_cons, ih (fun x hx => h x (by simp [hx]))]
    constructor
    · rintro ⟨h0, hall⟩
      have ha : a = 0 ∧ digitVal c = 0 := by omega
      refine ⟨ha.1, ?_⟩
      intro x hx
      rcases List.mem_cons.mp hx with hx | hx
      · subst hx
        exact (digitVal_eq_zero_iff x (h x (by simp))).mp ha.2
      · exact hall x hx
    · rintro ⟨ha, hall⟩
      subst ha
      have hc0 : c = '0' := hall c (by simp)
      subst hc0
      exact ⟨rfl, fun x hx => hall x (by simp [hx])⟩

theorem digitsVal_pos_iff (l : List Char) (h : ∀ c ∈ l, c.isDigit = true) :
    1 ≤ digitsVal l ↔ ∃ c ∈ l, c ≠ '0' := by
  have hz := digitsVal_foldl_zero_iff l h 0
  unfold digitsVal
  constructor
  · intro h1
    by_contra hcon
    push_neg at hcon
    have : l.foldl (fun a c => a * 10 + digitVal c) 0 = 0 := hz.mpr ⟨rfl, hcon⟩
    omega
  · rintro ⟨c, hc, hcne⟩
    by_contra hcon
    push_neg at hcon
    have h0 : l.foldl (fun a c => a * 10 + digitVal c) 0 = 0 := by omega
    exact hcne ((hz.mp h0).2 c hc)

/-- C5, amended: a `ParsedPassage` produced by `parse_passage_ref` carries
`chapter` equal to the numeric value of the matched chapter digit-run,
which is a nonnegative integer, and it is at least 1 exactly when some
matched chapter digit is nonzero; a token whose chapter digits are all
`'0'` (for example "Ps+0") yields chapter 0, not a positive integer. -/
theorem claim_C5 (s : List Char) (p : ParsedPassage)
    (h : parse_passage_ref s = some p) :
    ∃ g1 g2 g3, parse_passage_match (pyStrip (replaceChar '+' ' ' s)) =
        some (g1, g2, g3) ∧
      p.chapter = digitsVal g2 ∧ (1 ≤ p.chapter ↔ ∃ c ∈ g2, c ≠ '0') := by
  simp only [parse_passage_ref] at h
  split at h
  · simp at h
  · rename_i g1 g2 g3 hm
    split at h
    · simp at h
    · rename_i bn hb
      simp only [Option.some.injEq] at h
      obtain ⟨hdig, -⟩ := parse_passage_match_groups _ _ _ _ hm
      refine ⟨g1, g2, g3, hm, ?_, ?_⟩
      · rw [← h]
      · rw [← h]
        exact digitsVal_pos_iff g2 hdig

/-- Witness for the amended C5 at the token "Ps+3". -/
theorem claim_C5_witness :
    ∃ g1 g2 g3, parse_passage_match (pyStrip (replaceChar '+' ' '
        (("Ps+3").toList))) = some (g1, g2, g3) ∧
      (3 : Nat) = digitsVal g2 ∧ ((1 : Nat) ≤ 3 ↔ ∃ c ∈ g2, c ≠ '0') :=
  claim_C5 (("Ps+3").toList)
    { book := "Psalms", chapter := 3, verses := [], display := ("Psalms 3").toList }
    (by decide)

/-- Counterexample to C5 as stated: the token "Ps+0" parses successfully and
the resulting chapter is 0, which is not a positive integer. -/
theorem claim_C5_cex :
    ∃ p : ParsedPassage, parse_passage_ref (("Ps+0").toList) = some p ∧
      p.chapter = 0 :=
  ⟨{ book := "Psalms", chapter := 0, verses := [], display := ("Psalms 0").toList },
    by decide, rfl⟩

theorem takeWhile_eq_nil_of_all_neg {α : Type} (p : α → Bool) (l : List α)
    (h : ∀ c ∈ l, p c = false) : l.takeWhile p = [] := by
  cases l with
  | nil => rfl
  | cons c t => exact takeWhile_eq_nil_of_head p c t (h c (by simp))

theorem mem_pyStrip (s : List Char) (x : Char) (hx : x ∈ pyStrip s) : x ∈ s := by
  unfold pyStrip at hx
  rw [List.mem_reverse] at hx
  have h1 := List.Sublist.mem hx (List.dropWhile_sublist isSp)
  rw [List.mem_reverse] at h1
  exact List.Sublist.mem h1 (List.dropWhile_sublist isSp)

theorem parse_none_of_no_digit (s : List Char) (h : ∀ c ∈ s, c.isDigit = false) :
    parse_passage_ref s = none := by
  have hnd : ∀ c ∈ pyStrip (replaceChar '+' ' ' s), c.isDigit = false := by
    intro c hc
    have hc2 : c ∈ replaceChar '+' ' ' s := mem_pyStrip _ _ hc
    simp only [replaceChar, List.mem_map] at hc2
    obtain ⟨a, ha, hfa⟩ := hc2
    by_cases hao : a = '+'
    · rw [if_pos hao] at hfa; subst hfa; decide
    · rw [if_neg hao] at hfa; subst hfa; exact h a ha
  have hmain : parse_passage_match (pyStrip (replaceChar '+' ' ' s)) = none := by
    set v := pyStrip (replaceChar '+' ' ' s) with hv
    have key : ∀ (l : List Char), (∀ c ∈ l, c.isDigit = false) →
        (l.takeWhile Char.isDigit).isEmpty = true := by
      intro l hl
      rw [takeWhile_eq_nil_of_all_neg _ _ hl]
      rfl
    have memchain : ∀ (n : Nat) (c : Char),
        c ∈ (((v.drop n).dropWhile isSp).dropWhile Char.isAlpha).dropWhile isSp →
        c ∈ v := by
      intro n c hc
      have s1 := List.Sublist.mem hc (List.dropWhile_sublist _)
      have s2 := List.Sublist.mem s1 (List.dropWhile_sublist _)
      have s3 := List.Sublist.mem s2 (List.dropWhile_sublist _)
      exact List.Sublist.mem s3 (List.drop_sublist _ _)
    simp only [parse_passage_match]
    split
    · rfl
    · split
      · rfl
      · rename_i h1 h2
        exact absurd (key _ (fun c hc => hnd c (memchain _ c hc))) h2
  simp only [parse_passage_ref, hmain]

theorem refLoop_skip (T tok disp : List Char) (rest : List (List Char × List Char))
    (h : parse_passage_ref tok = none) :
    refLoop T ((tok, disp) :: rest) = refLoop T rest := by
  simp only [refLoop, h]

/-- C6: a token with no recognizable chapter number — no digit at all, such
as a bare book name — is unparseable (`parse_passage_ref` returns `none`),
and inside the extraction loop an anchor whose token is unparseable adds no
`Reference` while the remaining anchors are still processed. -/
theorem claim_C6 :
    (∀ s : List Char, (∀ c ∈ s, c.isDigit = false) → parse_passage_ref s = none) ∧
    (∀ (T tok disp : List Char) (rest : List (List Char × List Char)),
      parse_passage_ref tok = none →
      refLoop T ((tok, disp) :: rest) = refLoop T rest) :=
  ⟨parse_none_of_no_digit, refLoop_skip⟩

/-- Witness for C6: the bare book name "Genesis" is unparseable, and an
anchor carrying it contributes nothing to the reference list. -/
theorem claim_C6_witness :
    parse_passage_ref (("Genesis").toList) = none ∧
    refLoop [] [(("Genesis").toList, ("Genesis").toList)] = [] := by
  have h := claim_C6.1 (("Genesis").toList) (by decide)
  exact ⟨h, (claim_C6.2 [] _ _ [] h).trans rfl⟩

theorem refLoop_mem (T : List Char) (pairs : List (List Char × List Char))
    (tok disp : List Char) (p : ParsedPassage)
    (hmem : (tok, disp) ∈ pairs)
    (hp : parse_passage_ref tok = some p)
    (hnf : pyFind T (normWs (strip_html (pyStrip disp))) = none) :
    ({ ref := p, display := pyStrip disp, context := pyStrip disp } : Reference) ∈
      refLoop T pairs := by
  induction pairs with
  | nil => simp at hmem
  | cons pr rest ih =>
    rcases List.mem_cons.mp hmem with he | hm
    · rw [← he]
      simp only [refLoop, hp]
      have hctx : find_context T (normWs (strip_html (pyStrip disp)))
          (pyStrip disp) = pyStrip disp := by
        simp only [find_context, hnf]
      rw [hctx]
      exact List.mem_cons_self _ _
    · obtain ⟨tok', disp'⟩ := pr
      simp only [refLoop]
      split
      · exact ih hm
      · exact List.mem_cons_of_mem _ (ih hm)

/-- C7: an anchor whose cleaned display text does not occur in the
normalized document text is still retained in the output, with its context
equal to the (stripped) raw display text itself. -/
theorem claim_C7 (html tok disp : List Char) (p : ParsedPassage)
    (hmem : (tok, disp) ∈ scanRefs html)
    (hp : parse_passage_ref tok = some p)
    (hnf : pyFind (normWs (strip_html html))
        (normWs (strip_html (pyStrip disp))) = none) :
    ({ ref := p, display := pyStrip disp, context := pyStrip disp } : Reference) ∈
      extract_references_with_context html := by
  unfold extract_references_with_context
  exact refLoop_mem _ _ _ _ _ hmem hp hnf

/-- Witness for C7: a reference anchor inside a script block is scanned from
the raw markup but its display text does not occur in the extracted plain
text, so the reference is kept with the display text as its context. -/
theorem claim_C7_witness :
    ({ ref := { book := "Genesis", chapter := 1, verses := [],
                display := ("Genesis 1").toList },
       display := ("Ge 1").toList, context := ("Ge 1").toList } : Reference) ∈
      extract_references_with_context
        (("<script><A HREF=\"b?passage=Ge+1\">Ge 1</A></script>Other text.").toList) :=
  claim_C7 _ (("Ge+1").toList) (("Ge 1").toList) _ (by decide) (by decide) (by decide)

theorem nodup_append_singleton {α : Type} (l : List α) (a : α) (hnd : l.Nodup)
    (ha : a ∉ l) : (l ++ [a]).Nodup := by
  simp [List.nodup_append, hnd, ha]

theorem assoc_unique (st : List (List Char × BookEntry))
    (hnd : (st.map Prod.fst).Nodup) (code : List Char) (e1 e2 : BookEntry)
    (h1 : (code, e1) ∈ st) (h2 : (code, e2) ∈ st) : e1 = e2 := by
  induction st with
  | nil => simp at h1
  | cons pr rest ih =>
    simp only [List.map_cons, List.nodup_cons] at hnd
    rcases List.mem_cons.mp h1 with ha | ha <;> rcases List.mem_cons.mp h2 with hb | hb
    · rw [← hb] at ha
      exact congrArg Prod.snd ha
    · exfalso
      apply hnd.1
      have hp1 : pr.1 = code := by rw [← ha]
      rw [hp1]
      exact List.mem_map_of_mem Prod.fst hb
    · exfalso
      apply hnd.1
      have hp1 : pr.1 = code := by rw [← hb]
      rw [hp1]
      exact List.mem_map_of_mem Prod.fst ha
    · exact ih hnd.2 ha hb

theorem lookupEntry_mem (st : List (List Char × BookEntry)) (code : List Char)
    (e : BookEntry) (h : lookupEntry st code = some e) : (code, e) ∈ st := by
  unfold lookupEntry at h
  cases hf : st.find? (fun pr => pr.1 = code) with
  | none => rw [hf] at h; simp at h
  | some pr =>
    rw [hf] at h
    simp only [Option.map_some', Option.some.injEq] at h
    have hp := List.find?_some hf
    have hm := List.mem_of_find?_eq_some hf
    simp only [decide_eq_true_eq] at hp
    have hpr : pr = (code, e) := by
      obtain ⟨a, b⟩ := pr
      simp only [Prod.mk.injEq]
      exact ⟨hp, h⟩
    rwa [hpr] at hm

theorem lookupEntry_none (st : List (List Char × BookEntry)) (code : List Char)
    (h : lookupEntry st code = none) : ∀ pr ∈ st, pr.1 ≠ code := by
  unfold lookupEntry at h
  cases hf : st.find? (fun pr => pr.1 = code) with
  | none =>
    intro pr hpr
    have := List.find?_eq_none.mp hf pr hpr
    simpa using this
  | some pr => rw [hf] at h; simp at h

theorem addChapter_keys (st : List (List Char × BookEntry)) (code : List Char)
    (ch : Nat) : (addChapter st code ch).map Prod.fst = st.map Prod.fst := by
  induction st with
  | nil => rfl
  | cons pr rest ih =>
    simp only [addChapter, List.map_cons] at ih ⊢
    by_cases hc : pr.1 = code
    · rw [if_pos hc, ih]
    · rw [if_neg hc, ih]

theorem addChapter_mem (st : List (List Char × BookEntry)) (code : List Char)
    (ch : Nat) (pr : List Char × BookEntry) (h : pr ∈ addChapter st code ch) :
    (pr ∈ st ∧ pr.1 ≠ code) ∨
    (∃ e0, (code, e0) ∈ st ∧
      pr = (code, { e0 with chapters := e0.chapters ++ [ch] })) := by
  unfold addChapter at h
  rw [List.mem_map] at h
  obtain ⟨q, hq, hfq⟩ := h
  by_cases hqc : q.1 = code
  · right
    rw [if_pos hqc] at hfq
    refine ⟨q.2, ?_, ?_⟩
    · rw [← hqc]
      exact hq
    · rw [← hfq, hqc]
  · left
    rw [if_neg hqc] at hfq
    subst hfq
    exact ⟨hq, hqc⟩

theorem build_step_inv (st : List (List Char × BookEntry)) (f : List Char)
    (hnd : (st.map Prod.fst).Nodup)
    (hinv : ∀ pr ∈ st, pr.2.chapters.Nodup ∧ ∀ x ∈ pr.2.chapters, 0 < x) :
    ((build_step st f).map Prod.fst).Nodup ∧
    ∀ pr ∈ build_step st f, pr.2.chapters.Nodup ∧ ∀ x ∈ pr.2.chapters, 0 < x := by
  simp only [build_step]
  have hst1 : ∀ (st1 : List (List Char × BookEntry)),
      (st1.map Prod.fst).Nodup →
      (∀ pr ∈ st1, pr.2.chapters.Nodup ∧ ∀ x ∈ pr.2.chapters, 0 < x) →
      ((match lookupEntry st1 (get_book_code f) with
        | some e =>
          if 0 < get_chapter_from_filename f ∧
              get_chapter_from_filename f ∉ e.chapters then
            addChapter st1 (get_book_code f) (get_chapter_from_filename f)
          else st1
        | none => st1).map Prod.fst).Nodup ∧
      ∀ pr ∈ (match lookupEntry st1 (get_book_code f) with
        | some e =>
          if 0 < get_chapter_from_filename f ∧
              get_chapter_from_filename f ∉ e.chapters then
            addChapter st1 (get_book_code f) (get_chapter_from_filename f)
          else st1
        | none => st1),
        pr.2.chapters.Nodup ∧ ∀ x ∈ pr.2.chapters, 0 < x := by
    intro st1 hnd1 hinv1
    split
    case _ e hl =>
      by_cases hg : 0 < get_chapter_from_filename f ∧
          get_chapter_from_filename f ∉ e.chapters
      · rw [if_pos hg]
        refine ⟨by rw [addChapter_keys]; exact hnd1, ?_⟩
        intro pr hpr
        rcases addChapter_mem _ _ _ _ hpr with ⟨hmem, -⟩ | ⟨e0, hmem, hval⟩
        · exact hinv1 pr hmem
        · have he0 : e0 = e :=
            assoc_unique st1 hnd1 _ e0 e hmem (lookupEntry_mem _ _ _ hl)
          subst he0
          rw [hval]
          constructor
          · exact nodup_append_singleton _ _ (hinv1 _ hmem).1 hg.2
          · intro x hx
            rcases List.mem_append.mp hx with hx | hx
            · exact (hinv1 _ hmem).2 x hx
            · simp only [List.mem_singleton] at hx
              subst hx
              exact hg.1
      · rw [if_neg hg]
        exact ⟨hnd1, hinv1⟩
    case _ hl => exact ⟨hnd1, hinv1⟩
  by_cases hlk : (lookupEntry st (get_book_code f)).isSome = true
  · rw [if_pos hlk]
    exact hst1 st hnd hinv
  · rw [if_neg hlk]
    apply hst1
    · rw [List.map_append]
      apply nodup_append_singleton _ _ hnd
      intro hmem
      rw [List.mem_map] at hmem
      obtain ⟨pr, hpr, hfst⟩ := hmem
      have hnone : lookupEntry st (get_book_code f) = none := by
        cases hcase : lookupEntry st (get_book_code f) with
        | none => rfl
        | some e => rw [hcase] at hlk; simp at hlk
      exact lookupEntry_none st _ hnone pr hpr hfst
    · intro pr hpr
      rcases List.mem_append.mp hpr with hx | hx
      · exact hinv pr hx
      · simp only [List.mem_singleton] at hx
        subst hx
        exact ⟨List.nodup_nil, by simp⟩

theorem build_fold_inv (files : List (List Char)) (st : List (List Char × BookEntry))
    (hnd : (st.map Prod.fst).Nodup)
    (hinv : ∀ pr ∈ st, pr.2.chapters.Nodup ∧ ∀ x ∈ pr.2.chapters, 0 < x) :
    (((files.foldl build_step st).map Prod.fst).Nodup) ∧
    ∀ pr ∈ files.foldl build_step st,
      pr.2.chapters.Nodup ∧ ∀ x ∈ pr.2.chapters, 0 < x := by
  induction files generalizing st with
  | nil => exact ⟨hnd, hinv⟩
  | cons f fs ih =>
    rw [List.foldl_cons]
    obtain ⟨h1, h2⟩ := build_step_inv st f hnd hinv
    exact ih _ h1 h2

/-- C8: in the built book structure, every entry's chapter sequence is
strictly ascending (hence duplicate-free), and chapter number 0 — the
could-not-parse sentinel — never occurs in it. -/
theorem claim_C8 (files : List (List Char)) (code : List Char) (e : BookEntry)
    (h : (code, e) ∈ build_book_structure files) :
    List.Sorted (· < ·) e.chapters ∧ 0 ∉ e.chapters := by
  unfold build_book_structure at h
  rw [List.mem_map] at h
  obtain ⟨pr, hpr, hf⟩ := h
  obtain ⟨hnodup, hpos⟩ := (build_fold_inv files [] (by simp) (by simp)).2 pr hpr
  have hperm := List.perm_insertionSort (· ≤ ·) pr.2.chapters
  have hsorted := List.sorted_insertionSort (· ≤ ·) pr.2.chapters
  have hnd2 : (pr.2.chapters.insertionSort (· ≤ ·)).Nodup :=
    List.Perm.nodup hperm.symm hnodup
  have hec : e.chapters = pr.2.chapters.insertionSort (· ≤ ·) := by
    obtain ⟨c0, e0⟩ := pr
    simp only [Prod.mk.injEq] at hf
    rw [← hf.2]
  constructor
  · rw [hec]
    exact List.Pairwise.imp (fun hab => lt_of_le_of_ne hab.1 hab.2)
      (List.Pairwise.and hsorted hnd2)
  · rw [hec]
    intro h0
    rw [List.mem_insertionSort] at h0
    exact absurd (hpos 0 h0) (by omega)

/-- Witness for C8: two Psalms files yield the sorted chapter list [1, 23]
with no zero (end-to-end scenario 4 of the spec). -/
theorem claim_C8_witness :
    List.Sorted (· < ·) (({ name := "Psalms", chapters := [1, 23] } : BookEntry)).chapters ∧
    (0 : Nat) ∉ (({ name := "Psalms", chapters := [1, 23] } : BookEntry)).chapters :=
  claim_C8 [("MHC19023.HTM").toList, ("MHC19001.HTM").toList] (['1', '9'])
    { name := "Psalms", chapters := [1, 23] } (by decide)

theorem tokenizeHtml_data_no_lt (fuel : Nat) (s : List Char) :
    ∀ d, HTok.data d ∈ tokenizeHtmlAux fuel s → '<' ∉ d := by
  induction fuel generalizing s with
  | zero => intro d hd; simp [tokenizeHtmlAux] at hd
  | succ fuel ih =>
    intro d hd
    cases s with
    | nil => simp [tokenizeHtmlAux] at hd
    | cons c t =>
      simp only [tokenizeHtmlAux] at hd
      by_cases hc : c = '<'
      · rw [if_pos hc] at hd
        split at hd
        · simp at hd
        · rcases List.mem_cons.mp hd with he | hm
          · exact absurd he (by simp)
          · exact ih _ d hm
      · rw [if_neg hc] at hd
        rcases List.mem_cons.mp hd with he | hm
        · have hdv : d = (c :: t).takeWhile (fun x => x ≠ '<') := by
            injection he
          subst hdv
          intro hmem
          have := List.mem_takeWhile_imp hmem
          simp at this
        · exact ih _ d hm

theorem extractorRun_mem (toks : List HTok) (sc st : Bool) :
    ∀ d ∈ extractorRun toks sc st, HTok.data d ∈ toks := by
  induction toks generalizing sc st with
  | nil => intro d hd; simp [extractorRun] at hd
  | cons tok ts ih =>
    intro d hd
    cases tok with
    | data dd =>
      simp only [extractorRun] at hd
      split at hd
      · exact List.mem_cons_of_mem _ (ih _ _ d hd)
      · rcases List.mem_cons.mp hd with he | hm
        · rw [he]; exact List.mem_cons_self _ _
        · exact List.mem_cons_of_mem _ (ih _ _ d hm)
    | tag c =>
      simp only [extractorRun] at hd
      split at hd
      · exact List.mem_cons_of_mem _ (ih _ _ d hd)
      · split at hd
        · exact List.mem_cons_of_mem _ (ih _ _ d hd)
        · split at hd
          · exact List.mem_cons_of_mem _ (ih _ _ d hd)
          · split at hd
            · exact List.mem_cons_of_mem _ (ih _ _ d hd)
            · exact List.mem_cons_of_mem _ (ih _ _ d hd)

theorem joinParts_no_lt (parts : List (List Char)) (h : ∀ p ∈ parts, '<' ∉ p) :
    '<' ∉ joinParts parts := by
  induction parts with
  | nil => simp [joinParts]
  | cons p ps ih =>
    cases ps with
    | nil => simpa [joinParts] using h p (by simp)
    | cons q qs =>
      simp only [joinParts]
      intro hmem
      rcases List.mem_append.mp hmem with hm | hm
      · exact h p (by simp) hm
      · rcases List.mem_cons.mp hm with he | hm2
        · exact absurd he (by decide)
        · exact ih (fun x hx => h x (List.mem_cons_of_mem _ hx)) hm2

theorem hasTagSpanB_eq_false_of_no_lt (s : List Char) (h : '<' ∉ s) :
    hasTagSpanB s = false := by
  induction s with
  | nil => rfl
  | cons c t ih =>
    have hc : c ≠ '<' := fun hh => h (by simp [hh])
    have ht : hasTagSpanB t = false := ih (fun hm => h (by simp [hm]))
    simp [hasTagSpanB, hc, ht]

/-- C3 (spec-modelled Extractor): for every input string, the Markup Text
Extractor's output contains no `<...>` tag span.  The tokenization of the
stdlib `html.parser` driving `HTMLTextExtractor` is modelled from the spec;
under it every emitted data segment stops before a `'<'`, so the joined
output contains no `'<'` at all, hence no tag span. -/
theorem claim_C3 (s : List Char) : hasTagSpanB (strip_html s) = false := by
  apply hasTagSpanB_eq_false_of_no_lt
  show '<' ∉ joinParts (extractorRun (tokenizeHtml s) false false)
  apply joinParts_no_lt
  intro p hp
  exact tokenizeHtml_data_no_lt s.length s p (extractorRun_mem _ _ _ p hp)

theorem afterFirstGt_some (l r : List Char) (h : afterFirstGt l = some r) :
    r.length < l.length ∧ r <:+ l := by
  unfold afterFirstGt at h
  cases hdw : l.dropWhile (fun x => x ≠ '>') with
  | nil => rw [hdw] at h; simp at h
  | cons c rest =>
    rw [hdw] at h
    simp only [Option.some.injEq] at h
    subst h
    have hsub : l.dropWhile (fun x => x ≠ '>') <:+ l := List.dropWhile_suffix _
    rw [hdw] at hsub
    refine ⟨?_, List.IsSuffix.trans (List.suffix_cons c rest) hsub⟩
    have := hsub.sublist.length_le
    simp only [List.length_cons] at this
    omega

theorem tagSplit_some (t r : List Char) (h : tagSplit t = some r) :
    r.length < t.length ∧ r <:+ t := by
  cases t with
  | nil => simp [tagSplit] at h
  | cons c t' =>
    simp only [tagSplit] at h
    split at h
    · simp at h
    · exact afterFirstGt_some _ _ h

theorem all_of_dropWhile_eq_nil {α : Type} (p : α → Bool) (l : List α)
    (h : l.dropWhile p = []) : ∀ x ∈ l, p x = true := by
  induction l with
  | nil => simp
  | cons c t ih =>
    rw [List.dropWhile_cons] at h
    split at h
    · rename_i hp
      intro x hx
      rcases List.mem_cons.mp hx with he | hm
      · subst he; exact hp
      · exact ih h x hm
    · simp at h

theorem tagSplit_none_cases (t : List Char) (h : tagSplit t = none) :
    t = [] ∨ (∃ t', t = '>' :: t') ∨ ('>') ∉ t := by
  cases t with
  | nil => exact Or.inl rfl
  | cons c t' =>
    simp only [tagSplit] at h
    split at h
    · rename_i hc
      exact Or.inr (Or.inl ⟨t', by rw [hc]⟩)
    · right; right
      simp only [afterFirstGt] at h
      split at h
      · rename_i hdw
        intro hmem
        have := all_of_dropWhile_eq_nil _ _ hdw _ hmem
        simp at this
      · simp at h

theorem stripTagsAux_nil (fuel : Nat) : stripTagsAux fuel [] = [] := by
  cases fuel <;> rfl

theorem stripTagsAux_cons_ne (fuel : Nat) (c : Char) (t : List Char)
    (hc : c ≠ '<') : stripTagsAux (fuel + 1) (c :: t) = c :: stripTagsAux fuel t := by
  simp [stripTagsAux, hc]

theorem mem_stripTagsAux (fuel : Nat) (s : List Char) (x : Char)
    (h : x ∈ stripTagsAux fuel s) : x ∈ s := by
  induction fuel generalizing s with
  | zero => exact h
  | succ fuel ih =>
    cases s with
    | nil =>
      rw [show stripTagsAux (fuel + 1) ([] : List Char) = [] from rfl] at h
      simp at h
    | cons c t =>
      simp only [stripTagsAux] at h
      by_cases hc : c = '<'
      · rw [if_pos hc] at h
        split at h
        · rename_i rest hts
          have hsub := (tagSplit_some _ _ hts).2
          exact List.mem_cons_of_mem _ (hsub.sublist.mem (ih _ h))
        · rcases List.mem_cons.mp h with he | hm
          · rw [he, hc]; exact List.mem_cons_self _ _
          · exact List.mem_cons_of_mem _ (ih _ hm)
      · rw [if_neg hc] at h
        rcases List.mem_cons.mp h with he | hm
        · rw [he]; exact List.mem_cons_self _ _
        · exact List.mem_cons_of_mem _ (ih _ hm)

theorem contains_gt_false (l : List Char) (h : ('>') ∉ l) : l.contains '>' = false := by
  cases hc : l.contains '>'
  · rfl
  · rw [List.contains_eq_any_beq, List.any_eq_true] at hc
    obtain ⟨x, hx, hbeq⟩ := hc
    rw [beq_iff_eq] at hbeq
    exact absurd (hbeq ▸ hx) h

theorem tagCloses_false (l : List Char) (h : ('>') ∉ l) : tagCloses l = false := by
  cases l with
  | nil => rfl
  | cons d t' =>
    simp only [tagCloses]
    have hcf : t'.contains '>' = false :=
      contains_gt_false t' (fun hm => h (List.mem_cons_of_mem _ hm))
    rw [hcf]
    simp

theorem hasTagSpanB_stripTagsAux (fuel : Nat) (s : List Char) (hf : s.length ≤ fuel) :
    hasTagSpanB (stripTagsAux fuel s) = false := by
  induction fuel generalizing s with
  | zero =>
    have : s = [] := by
      cases s with
      | nil => rfl
      | cons c t => simp at hf
    rw [this]
    rfl
  | succ fuel ih =>
    cases s with
    | nil => rfl
    | cons c t =>
      have htf : t.length ≤ fuel := by
        simp only [List.length_cons] at hf
        omega
      simp only [stripTagsAux]
      by_cases hc : c = '<'
      · rw [if_pos hc]
        split
        · rename_i rest hts
          exact ih rest (by
            have := (tagSplit_some _ _ hts).1
            omega)
        · rename_i hts
          simp only [hasTagSpanB, ih t htf, Bool.or_false]
          have hout : tagCloses (stripTagsAux fuel t) = false := by
            rcases tagSplit_none_cases t hts with h0 | ⟨t', h0⟩ | h0
            · rw [h0, stripTagsAux_nil]; rfl
            · subst h0
              cases fuel with
              | zero => simp at htf
              | succ f =>
                rw [stripTagsAux_cons_ne f '>' t' (by decide)]
                simp only [tagCloses]
                simp
            · apply tagCloses_false
              intro hm
              exact h0 (mem_stripTagsAux _ _ _ hm)
          rw [hout]
          simp
      · rw [if_neg hc]
        simp [hasTagSpanB, ih t htf, hc]

/-- C9: `strip_html` is total — every input yields a string, either from the
(spec-modelled, never-failing) parser path or from the regex fallback — and
the fallback path behaves as the claim describes: it deletes script/style
blocks case-insensitively across newlines (demonstrated on a concrete
mixed-case multi-line input) and then deletes all remaining angle-bracket
tag spans (proved for every input: the fallback output never contains a
`<[^>]+>` span). -/
theorem claim_C9 :
    (∀ s, strip_html s = extractorText s ∨ strip_html s = strip_html_fallback s) ∧
    (∀ s, hasTagSpanB (strip_html_fallback s) = false) ∧
    strip_html_fallback
        (("A<SCRIPT x>\nhide\n</sCrIpT>B<style>\nh\n</STYLE>C<p>D").toList) =
      ("ABCD").toList := by
  refine ⟨fun s => Or.inl rfl, fun s => ?_, by decide⟩
  exact hasTagSpanB_stripTagsAux _ _ (Nat.le_refl _)

theorem pyFind_some (hay nd : List Char) (pos : Nat) (h : pyFind hay nd = some pos) :
    nd <+: hay.drop pos ∧ pos + nd.length ≤ hay.length := by
  induction hay generalizing pos with
  | nil =>
    simp only [pyFind] at h
    split at h
    · rename_i hp
      simp only [Option.some.injEq] at h
      subst h
      rw [List.isPrefixOf_iff_prefix] at hp
      exact ⟨by simpa using hp, by simpa using hp.length_le⟩
    · simp at h
  | cons c t ih =>
    simp only [pyFind] at h
    split at h
    · rename_i hp
      simp only [Option.some.injEq] at h
      subst h
      rw [List.isPrefixOf_iff_prefix] at hp
      exact ⟨by simpa using hp, by simpa using hp.length_le⟩
    · cases hq : pyFind t nd with
      | none => rw [hq] at h; simp at h
      | some q =>
        rw [hq] at h
        simp only [Option.map_some', Option.some.injEq] at h
        subst h
        obtain ⟨h1, h2⟩ := ih q hq
        refine ⟨by simpa using h1, ?_⟩
        simp only [List.length_cons]
        omega

theorem extendStart_le (T : List Char) (s : Nat) : extendStart T s ≤ s := by
  induction s with
  | zero => exact Nat.le_refl 0
  | succ s ih =>
    simp only [extendStart]
    split
    · exact Nat.le_refl _
    · exact Nat.le_succ_of_le ih

theorem extendEndAux_ge (T : List Char) (fuel e : Nat) : e ≤ extendEndAux T fuel e := by
  induction fuel generalizing e with
  | zero => exact Nat.le_refl _
  | succ fuel ih =>
    simp only [extendEndAux]
    by_cases hlt : e < T.length
    · rw [if_pos hlt]
      by_cases hb : boundaryChar (T.getD e ' ') = true
      · rw [if_pos hb]
      · rw [if_neg hb]
        exact le_trans (Nat.le_succ e) (ih (e + 1))
    · rw [if_neg hlt]

theorem extendEndAux_le (T : List Char) (fuel e : Nat) (he : e ≤ T.length) :
    extendEndAux T fuel e ≤ T.length := by
  induction fuel generalizing e with
  | zero => exact he
  | succ fuel ih =>
    simp only [extendEndAux]
    by_cases hlt : e < T.length
    · rw [if_pos hlt]
      by_cases hb : boundaryChar (T.getD e ' ') = true
      · rw [if_pos hb]; exact he
      · rw [if_neg hb]
        exact ih (e + 1) (by omega)
    · rw [if_neg hlt]; exact he

theorem pyStrip_length_le (s : List Char) : (pyStrip s).length ≤ s.length := by
  unfold pyStrip
  have l1 := (List.dropWhile_sublist (l := s) isSp).length_le
  have l2 := (List.dropWhile_sublist (l := (s.dropWhile isSp).reverse) isSp).length_le
  simp only [List.length_reverse] at l2 ⊢
  omega

theorem head_not_p_of_dropWhile_eq_self (p : Char → Bool) (l : List Char)
    (hne : l ≠ []) (h : l.dropWhile p = l) : p (l.head hne) = false := by
  cases l with
  | nil => exact absurd rfl hne
  | cons c t =>
    rw [List.dropWhile_cons] at h
    by_cases hp : p c = true
    · rw [if_pos hp] at h
      have hlen := congrArg List.length h
      have hle := (List.dropWhile_sublist (l := t) p).length_le
      simp only [List.length_cons] at hlen
      omega
    · simpa using hp

theorem pyStrip_self_facts (dc : List Char) (hdc : dc ≠ []) (h : pyStrip dc = dc) :
    isSp (dc.head hdc) = false ∧
    isSp (dc.reverse.head (by simpa using hdc)) = false := by
  have hd_eq : dc.dropWhile isSp = dc := by
    apply List.Sublist.eq_of_length (List.dropWhile_sublist _)
    have hlen := congrArg List.length h
    have l1 := (List.dropWhile_sublist (l := dc) isSp).length_le
    have l2 := (List.dropWhile_sublist (l := (dc.dropWhile isSp).reverse) isSp).length_le
    unfold pyStrip at hlen
    simp only [List.length_reverse] at hlen l2
    omega
  have hrev_eq : dc.reverse.dropWhile isSp = dc.reverse := by
    have h2 : ((dc.dropWhile isSp).reverse.dropWhile isSp).reverse = dc := h
    rw [hd_eq] at h2
    have h3 := congrArg List.reverse h2
    simpa using h3
  exact ⟨head_not_p_of_dropWhile_eq_self _ _ hdc hd_eq,
    head_not_p_of_dropWhile_eq_self _ _ _ hrev_eq⟩

theorem dropWhile_exists_pre (p : Char → Bool) (A dc B : List Char)
    (hdc : dc ≠ []) (hhead : p (dc.head hdc) = false) :
    ∃ A', (A ++ dc ++ B).dropWhile p = A' ++ dc ++ B := by
  induction A with
  | nil =>
    refine ⟨[], ?_⟩
    simp only [List.nil_append]
    cases dc with
    | nil => exact absurd rfl hdc
    | cons c t =>
      have hc : p c = false := hhead
      simp only [List.cons_append]
      exact dropWhile_cons_of_neg p c (t ++ B) hc
  | cons a A ih =>
    by_cases ha : p a = true
    · obtain ⟨A', hA'⟩ := ih
      refine ⟨A', ?_⟩
      simp only [List.cons_append]
      rw [List.dropWhile_cons, if_pos ha]
      exact hA'
    · refine ⟨a :: A, ?_⟩
      simp only [List.cons_append]
      rw [List.dropWhile_cons, if_neg ha]

theorem pyStrip_infix (A dc B : List Char) (hdc_trim : pyStrip dc = dc) :
    dc <:+: pyStrip (A ++ dc ++ B) := by
  by_cases hdc : dc = []
  · subst hdc; exact List.nil_infix
  · obtain ⟨hhead, hlast⟩ := pyStrip_self_facts dc hdc hdc_trim
    unfold pyStrip
    obtain ⟨A', h1⟩ := dropWhile_exists_pre isSp A dc B hdc hhead
    rw [h1]
    have hrevne : dc.reverse ≠ [] := by simpa using hdc
    have hassoc : (A' ++ dc ++ B).reverse =
        B.reverse ++ dc.reverse ++ A'.reverse := by
      rw [List.reverse_append, List.reverse_append]
      rw [List.append_assoc]
    rw [hassoc]
    obtain ⟨B', h2⟩ := dropWhile_exists_pre isSp B.reverse dc.reverse A'.reverse
      hrevne hlast
    rw [h2]
    refine ⟨A', B'.reverse, ?_⟩
    rw [List.reverse_append, List.reverse_append, List.reverse_reverse,
      List.reverse_reverse, List.append_assoc]

theorem slice_decomp (T : List Char) (start pos L e : Nat)
    (h1 : start ≤ pos) (h2 : pos + L ≤ e) :
    (T.drop start).take (e - start) =
      ((T.drop start).take (pos - start)) ++ ((T.drop pos).take L) ++
        ((T.drop (pos + L)).take (e - (pos + L))) := by
  have hsum : e - start = (pos - start) + (L + (e - (pos + L))) := by omega
  rw [hsum, List.take_add, List.take_add, List.drop_drop, List.drop_drop]
  have e1 : start + (pos - start) = pos := by omega
  rw [e1, List.append_assoc]

theorem prefix_take_eq (l p : List Char) (h : p <+: l) : l.take p.length = p := by
  obtain ⟨t, rfl⟩ := h
  exact List.take_left p t

/-- C2, amended: for a found match, the context string is at least as long
as the cleaned display text, and at most six characters (two `'...'`
ellipsis markers) longer than the normalized document text.  The original
upper bound — the normalized text's length itself — fails because the
markers are appended after slicing (see the counterexample). -/
theorem claim_C2 (T dc disp : List Char) (hdc : pyStrip dc = dc) (pos : Nat)
    (hf : pyFind T dc = some pos) :
    dc.length ≤ (find_context T dc disp).length ∧
    (find_context T dc disp).length ≤ T.length + 6 := by
  obtain ⟨hpre, hlen⟩ := pyFind_some T dc pos hf
  simp only [find_context, hf]
  generalize hgs : extendStart T (pos - context_chars) = start
  generalize hge : extendEnd T (min T.length (pos + dc.length + context_chars)) = e
  have hs_le : start ≤ pos := by
    rw [← hgs]
    exact le_trans (extendStart_le _ _) (Nat.sub_le _ _)
  have he_ge : pos + dc.length ≤ e := by
    rw [← hge]
    exact le_trans (Nat.le_min.mpr ⟨hlen, by omega⟩) (extendEndAux_ge _ _ _)
  have he_le : e ≤ T.length := by
    rw [← hge]
    exact extendEndAux_le _ _ _ (Nat.min_le_left _ _)
  have hdecomp := slice_decomp T start pos dc.length e hs_le he_ge
  rw [prefix_take_eq _ _ hpre] at hdecomp
  have hinfix : dc <:+: pyStrip ((T.drop start).take (e - start)) := by
    rw [hdecomp]
    exact pyStrip_infix _ _ _ hdc
  have hlow : dc.length ≤ (pyStrip ((T.drop start).take (e - start))).length :=
    hinfix.length_le
  have hup : (pyStrip ((T.drop start).take (e - start))).length ≤ T.length := by
    refine le_trans (pyStrip_length_le _) ?_
    rw [List.length_take, List.length_drop]
    omega
  by_cases h0 : 0 < start
  · rw [if_pos h0]
    by_cases h1 : e < T.length
    · rw [if_pos h1]
      simp only [List.length_append, List.length_cons, List.length_nil]
      constructor <;> omega
    · rw [if_neg h1]
      simp only [List.length_cons]
      constructor <;> omega
  · rw [if_neg h0]
    by_cases h1 : e < T.length
    · rw [if_pos h1]
      simp only [List.length_append, List.length_cons, List.length_nil]
      constructor <;> omega
    · rw [if_neg h1]
      constructor <;> omega

/-- Witness for the amended C2 on a small found match. -/
theorem claim_C2_witness :
    (("Ps 23").toList).length ≤
      (find_context (("say Ps 23 here").toList) (("Ps 23").toList)
        (("Ps 23").toList)).length ∧
    (find_context (("say Ps 23 here").toList) (("Ps 23").toList)
        (("Ps 23").toList)).length ≤ (("say Ps 23 here").toList).length + 6 :=
  claim_C2 (("say Ps 23 here").toList) (("Ps 23").toList) (("Ps 23").toList)
    (by decide) 4 (by decide)

/-- Counterexample to C2 as stated: on the 404-character document `T2cex`
(already normalized: it is its own extracted, whitespace-normalized text)
with cleaned display text "Q" found at position 201, the returned context
has 407 characters — three more than the document text — because the two
`'...'` markers are appended after slicing. -/
theorem claim_C2_cex :
    normWs (strip_html T2cex) = T2cex ∧
    normWs (strip_html (pyStrip ['Q'])) = ['Q'] ∧
    pyFind T2cex ['Q'] = some 201 ∧
    T2cex.length = 404 ∧
    (find_context T2cex ['Q'] ['Q']).length = 407 := by
  refine ⟨by decide, by decide, by decide, by decide, by decide⟩

theorem ciPrefix_length_le (pat s : List Char) (h : ciPrefix pat s = true) :
    pat.length ≤ s.length := by
  induction pat generalizing s with
  | nil => simp
  | cons p ps ih =>
    cases s with
    | nil => simp [ciPrefix] at h
    | cons c cs =>
      simp only [ciPrefix, Bool.and_eq_true] at h
      have := ih cs h.2
      simp only [List.length_cons]
      omega

theorem ciPrefix_append_right (pat u z : List Char) (h : ciPrefix pat u = true) :
    ciPrefix pat (u ++ z) = true := by
  induction pat generalizing u with
  | nil => rfl
  | cons p ps ih =>
    cases u with
    | nil => simp [ciPrefix] at h
    | cons c cs =>
      simp only [ciPrefix, Bool.and_eq_true] at h
      simp only [List.cons_append, ciPrefix, Bool.and_eq_true]
      exact ⟨h.1, ih cs h.2⟩

theorem ciPrefix_self_append (pat s : List Char) : ciPrefix pat (pat ++ s) = true := by
  induction pat with
  | nil => rfl
  | cons p ps ih =>
    simp only [List.cons_append, ciPrefix]
    show (ciEq p p && ciPrefix ps (ps ++ s)) = true
    rw [ih]
    simp [ciEq]

theorem reqCI_some (pat s r : List Char) (h : reqCI pat s = some r) :
    ciPrefix pat s = true ∧ r = s.drop pat.length := by
  unfold reqCI at h
  split at h
  · rename_i hp
    simp only [Option.some.injEq] at h
    exact ⟨hp, h.symm⟩
  · simp at h

theorem dropWhile_head_false {α : Type} (p : α → Bool) (l : List α) (c : α)
    (r : List α) (h : l.dropWhile p = c :: r) : p c = false := by
  induction l with
  | nil => simp at h
  | cons a t ih =>
    rw [List.dropWhile_cons] at h
    split at h
    · exact ih h
    · rename_i hp
      injection h with h1 h2
      subst h1
      simpa using hp

theorem splitAtChar_some (ch : Char) (s pre rest : List Char)
    (h : splitAtChar ch s = some (pre, rest)) :
    s = pre ++ ch :: rest ∧ rest.length < s.length := by
  simp only [splitAtChar] at h
  split at h
  · simp at h
  · rename_i c r hdw
    simp only [Option.some.injEq, Prod.mk.injEq] at h
    obtain ⟨hpre, hrest⟩ := h
    have hc : c = ch := by
      have := dropWhile_head_false _ _ _ _ hdw
      simpa using this
    rw [hc] at hdw
    have hs2 : s = s.takeWhile (fun x => x ≠ ch) ++ (ch :: r) := by
      conv_lhs => rw [← List.takeWhile_append_dropWhile (p := fun x => x ≠ ch) (l := s)]
      rw [hdw]
    constructor
    · rw [← hpre, ← hrest]
      exact hs2
    · rw [← hrest]
      have := congrArg List.length hs2
      simp only [List.length_append, List.length_cons] at this
      omega

theorem contains_false_of_all_ne (l : List Char) (a : Char)
    (h : ∀ x ∈ l, x ≠ a) : l.contains a = false := by
  cases hc : l.contains a
  · rfl
  · rw [List.contains_eq_any_beq, List.any_eq_true] at hc
    obtain ⟨x, hx, hbeq⟩ := hc
    rw [beq_iff_eq] at hbeq
    exact absurd (hbeq ▸ hx) (fun hm => h a hm rfl)

theorem isSome_map_eq {A B : Type} (f : A → B) (o : Option A) :
    (o.map f).isSome = o.isSome := by
  cases o <;> rfl

theorem containsCI_cons_false (pat : List Char) (c : Char) (tail : List Char)
    (h : containsCI pat (c :: tail) = false) : containsCI pat tail = false := by
  simp only [containsCI, firstSplitCI] at h ⊢
  cases hb : ciPrefix pat (c :: tail) with
  | true => rw [hb] at h; simp at h
  | false =>
    rw [hb] at h
    simp only [Bool.false_eq_true, if_false, isSome_map_eq] at h
    exact h

theorem ciPrefix_false_of_not_containsCI (pat s : List Char)
    (h : containsCI pat s = false) :
    ∀ a z, s = a ++ z → ciPrefix pat z = false := by
  intro a
  induction a generalizing s with
  | nil =>
    intro z hz
    rw [List.nil_append] at hz
    rw [hz] at h
    cases hb : ciPrefix pat z with
    | false => rfl
    | true =>
      exfalso
      cases z with
      | nil => simp [containsCI, firstSplitCI, hb] at h
      | cons c w => simp [containsCI, firstSplitCI, hb] at h
  | cons c a' ih =>
    intro z hz
    rw [hz, List.cons_append] at h
    exact ih (a' ++ z) (containsCI_cons_false _ _ _ h) z rfl

theorem lastSplitNE_none_of_no_prefix (pat s : List Char)
    (h : ∀ a z, s = a ++ z → ciPrefix pat z = false) :
    lastSplitNE pat s = none := by
  induction s with
  | nil => rfl
  | cons c rest ih =>
    have hrec := ih (fun a z hz => h (c :: a) z (by rw [hz]; rfl))
    have hc := h [] (c :: rest) rfl
    rw [lastSplitNE, hrec]
    simp [hc]

theorem lastSplitNE_canonical (pre t : List Char)
    (htp : containsCI (['p', 'a', 's', 's', 'a', 'g', 'e', '=']) t = false)
    (htne : t ≠ []) :
    lastSplitNE (['p', 'a', 's', 's', 'a', 'g', 'e', '='])
      (pre ++ ['p', 'a', 's', 's', 'a', 'g', 'e', '='] ++ t) = some (pre, t) := by
  have hte : t.isEmpty = false := by
    cases t with
    | nil => exact absurd rfl htne
    | cons a b => rfl
  induction pre with
  | nil =>
    simp only [List.nil_append]
    show lastSplitNE (['p', 'a', 's', 's', 'a', 'g', 'e', '='])
      ('p' :: (['a', 's', 's', 'a', 'g', 'e', '='] ++ t)) = some ([], t)
    have hnone : lastSplitNE (['p', 'a', 's', 's', 'a', 'g', 'e', '='])
        (['a', 's', 's', 'a', 'g', 'e', '='] ++ t) = none := by
      apply lastSplitNE_none_of_no_prefix
      intro a z hz
      rcases List.append_eq_append_iff.mp hz with ⟨w, hw1, hw2⟩ | ⟨w, hw1, hw2⟩
      · exact ciPrefix_false_of_not_containsCI _ t htp w z hw2
      · cases w with
        | nil =>
          rw [List.nil_append] at hw2
          rw [hw2]
          exact ciPrefix_false_of_not_containsCI _ t htp [] t rfl
        | cons cw w' =>
          have hcw : cw ∈ (['a', 's', 's', 'a', 'g', 'e', '='] : List Char) := by
            rw [hw1]
            simp
          have hall : ∀ x ∈ (['a', 's', 's', 'a', 'g', 'e', '='] : List Char),
              ciEq x 'p' = false := by decide
          rw [hw2, List.cons_append]
          show (ciEq cw 'p' && ciPrefix (['a', 's', 's', 'a', 'g', 'e', '=']) (w' ++ t))
              = false
          rw [hall cw hcw]
          rfl
    have hcp : ciPrefix (['p', 'a', 's', 's', 'a', 'g', 'e', '='])
        ('p' :: 'a' :: 's' :: 's' :: 'a' :: 'g' :: 'e' :: '=' :: t) = true := by
      show ciPrefix (['p', 'a', 's', 's', 'a', 'g', 'e', '='])
        (['p', 'a', 's', 's', 'a', 'g', 'e', '='] ++ t) = true
      exact ciPrefix_self_append _ _
    rw [lastSplitNE, hnone]
    simp [hcp, hte]
  | cons c pre ih =>
    simp only [List.append_assoc, List.cons_append, List.nil_append] at ih ⊢
    simp [lastSplitNE, ih]

theorem ciPrefix_false_append (pat z X : List Char) (hlen : pat.length ≤ z.length)
    (h : ciPrefix pat z = false) : ciPrefix pat (z ++ X) = false := by
  induction pat generalizing z with
  | nil => simp [ciPrefix] at h
  | cons p ps ih =>
    cases z with
    | nil => simp at hlen
    | cons c cs =>
      rw [List.cons_append]
      show (ciEq c p && ciPrefix ps (cs ++ X)) = false
      have h' : (ciEq c p && ciPrefix ps cs) = false := h
      cases hcp : ciEq c p with
      | false => rfl
      | true =>
        rw [hcp] at h'
        simp only [Bool.true_and] at h' ⊢
        simp only [List.length_cons] at hlen
        exact ih cs (by omega) h'


theorem splitAtChar_eval (ch : Char) (u v : List Char) (hu : ∀ c ∈ u, c ≠ ch) :
    splitAtChar ch (u ++ ch :: v) = some (u, v) := by
  have hu' : ∀ c ∈ u, (fun x => decide (x ≠ ch)) c = true := by
    intro c hc
    simpa using hu c hc
  have hta : (u ++ ch :: v).takeWhile (fun x => x ≠ ch) = u := by
    rw [takeWhile_append_of_all _ u _ hu']
    simp [List.takeWhile_cons]
  have hda : (u ++ ch :: v).dropWhile (fun x => x ≠ ch) = ch :: v := by
    rw [dropWhile_append_of_all _ u _ hu']
    simp [List.dropWhile_cons]
  simp only [splitAtChar, hda, hta]

theorem matchAnchorAt_eval (s s1 s3 q s4 tok s5 s7 disp a b : List Char)
    (h1 : reqCI ("<a".toList) s = some s1)
    (h2 : (s1.takeWhile isSp).isEmpty = false)
    (h3 : reqCI ("href=\"".toList) (s1.dropWhile isSp) = some s3)
    (h4 : splitAtChar '"' s3 = some (q, s4))
    (h5 : lastSplitNE ("passage=".toList) q = some (a, tok))
    (h6 : tok.contains '&' = false)
    (h7 : splitAtChar '>' s4 = some (b, s5))
    (h8 : s5.takeWhile (fun x => x ≠ '<') = disp)
    (h8e : disp.isEmpty = false)
    (h9 : reqCI ("</a>".toList) (s5.dropWhile (fun x => x ≠ '<')) = some s7) :
    matchAnchorAt s = some (tok, disp, s7) := by
  simp only [matchAnchorAt, h1, h2, h3, h4, h5, h6, h7, h8, h8e, h9,
    Bool.false_eq_true, if_false]

theorem matchAnchorAt_anchor (pre t d rest : List Char)
    (hpre : ∀ c ∈ pre, c ≠ '"')
    (ht : ∀ c ∈ t, c ≠ '"' ∧ c ≠ '&')
    (htp : containsCI ("passage=".toList) t = false) (htne : t ≠ [])
    (hd : ∀ c ∈ d, c ≠ '<') (hdne : d ≠ []) :
    matchAnchorAt (anchorStr pre t d ++ rest) = some (t, d, rest) := by
  have hs : anchorStr pre t d ++ rest =
      '<' :: 'A' :: ' ' :: 'H' :: 'R' :: 'E' :: 'F' :: '=' :: '"' ::
        (pre ++ ('p' :: 'a' :: 's' :: 's' :: 'a' :: 'g' :: 'e' :: '=' ::
          (t ++ ('"' :: '>' :: (d ++ ('<' :: '/' :: 'A' :: '>' :: rest)))))) := by
    simp [anchorStr]
  rw [hs]
  apply matchAnchorAt_eval _
    (' ' :: 'H' :: 'R' :: 'E' :: 'F' :: '=' :: '"' ::
      (pre ++ ('p' :: 'a' :: 's' :: 's' :: 'a' :: 'g' :: 'e' :: '=' ::
        (t ++ ('"' :: '>' :: (d ++ ('<' :: '/' :: 'A' :: '>' :: rest)))))))
    (pre ++ ('p' :: 'a' :: 's' :: 's' :: 'a' :: 'g' :: 'e' :: '=' ::
      (t ++ ('"' :: '>' :: (d ++ ('<' :: '/' :: 'A' :: '>' :: rest))))))
    (pre ++ ['p', 'a', 's', 's', 'a', 'g', 'e', '='] ++ t)
    ('>' :: (d ++ ('<' :: '/' :: 'A' :: '>' :: rest)))
    t
    (d ++ ('<' :: '/' :: 'A' :: '>' :: rest))
    rest d pre []
  · rfl
  · rfl
  · rfl
  · have hassoc :
        (pre ++ ('p' :: 'a' :: 's' :: 's' :: 'a' :: 'g' :: 'e' :: '=' ::
          (t ++ ('"' :: '>' :: (d ++ ('<' :: '/' :: 'A' :: '>' :: rest)))))) =
        (pre ++ ['p', 'a', 's', 's', 'a', 'g', 'e', '='] ++ t) ++
          ('"' :: ('>' :: (d ++ ('<' :: '/' :: 'A' :: '>' :: rest)))) := by
      simp
    rw [hassoc]
    apply splitAtChar_eval
    intro c hc
    rcases List.mem_append.mp hc with hc1 | hc2
    · rcases List.mem_append.mp hc1 with hc3 | hc4
      · exact hpre c hc3
      · have hP : ∀ x ∈ (['p', 'a', 's', 's', 'a', 'g', 'e', '='] : List Char),
            x ≠ '"' := by decide
        exact hP c hc4
    · exact (ht c hc2).1
  · exact lastSplitNE_canonical pre t htp htne
  · exact contains_false_of_all_ne t '&' (fun c hc => (ht c hc).2)
  · have := splitAtChar_eval '>' []
      (d ++ ('<' :: '/' :: 'A' :: '>' :: rest)) (by simp)
    simpa using this
  · have hd' : ∀ c ∈ d, (fun x => decide (x ≠ '<')) c = true := by
      intro c hc
      simpa using hd c hc
    rw [takeWhile_append_of_all _ d _ hd']
    simp [List.takeWhile_cons]
  · cases d with
    | nil => exact absurd rfl hdne
    | cons a b => rfl
  · have hd' : ∀ c ∈ d, (fun x => decide (x ≠ '<')) c = true := by
      intro c hc
      simpa using hd c hc
    rw [dropWhile_append_of_all _ d _ hd']
    rfl

theorem matchAnchorAt_shrink (s t d r : List Char)
    (h : matchAnchorAt s = some (t, d, r)) : r.length < s.length := by
  simp only [matchAnchorAt] at h
  split at h
  · exact Option.noConfusion h
  rename_i s1 h1
  split at h
  · exact Option.noConfusion h
  split at h
  · exact Option.noConfusion h
  rename_i s3 h3
  split at h
  · exact Option.noConfusion h
  rename_i q s4 h4
  split at h
  · exact Option.noConfusion h
  rename_i pr tok h5
  split at h
  · exact Option.noConfusion h
  split at h
  · exact Option.noConfusion h
  rename_i pr2 s5 h7
  split at h
  · exact Option.noConfusion h
  split at h
  · exact Option.noConfusion h
  · rename_i s7 h9
    simp only [Option.some.injEq, Prod.mk.injEq] at h
    obtain ⟨-, -, hr⟩ := h
    have e1 := reqCI_some _ _ _ h1
    have e3 := reqCI_some _ _ _ h3
    have e4 := (splitAtChar_some _ _ _ _ h4).2
    have e7 := (splitAtChar_some _ _ _ _ h7).2
    have e9 := reqCI_some _ _ _ h9
    have l1 : s1.length ≤ s.length := by
      rw [e1.2]
      simp only [List.length_drop]
      omega
    have l2 : (s1.dropWhile isSp).length ≤ s1.length :=
      (List.dropWhile_sublist _).length_le
    have l3 : s3.length ≤ (s1.dropWhile isSp).length := by
      rw [e3.2]
      simp only [List.length_drop]
      omega
    have l6 : (s5.dropWhile (fun x => x ≠ '<')).length ≤ s5.length :=
      (List.dropWhile_sublist _).length_le
    have l9 : s7.length ≤ (s5.dropWhile (fun x => x ≠ '<')).length := by
      rw [e9.2]
      simp only [List.length_drop]
      omega
    rw [← hr]
    omega

theorem matchAnchorAt_nil : matchAnchorAt [] = none := rfl

theorem matchAnchorAt_not_open (s : List Char)
    (h : ciPrefix ("<a".toList) s = false) : matchAnchorAt s = none := by
  simp only [matchAnchorAt, reqCI, h, Bool.false_eq_true, if_false]

theorem scanRefsAux_nil (fuel : Nat) : scanRefsAux fuel [] = [] := by
  cases fuel <;> rfl

theorem scanRefsAux_succ_some (fuel : Nat) (s t d r : List Char)
    (h : matchAnchorAt s = some (t, d, r)) :
    scanRefsAux (fuel + 1) s = (t, d) :: scanRefsAux fuel r := by
  simp only [scanRefsAux, h]

theorem scanRefsAux_succ_none (fuel : Nat) (c : Char) (tail : List Char)
    (h : matchAnchorAt (c :: tail) = none) :
    scanRefsAux (fuel + 1) (c :: tail) = scanRefsAux fuel tail := by
  simp only [scanRefsAux, h]

theorem scanRefsAux_congr (fuel fuel' : Nat) (s : List Char)
    (h : s.length ≤ fuel) (h' : s.length ≤ fuel') :
    scanRefsAux fuel s = scanRefsAux fuel' s := by
  induction fuel generalizing fuel' s with
  | zero =>
    have hs : s = [] := List.length_eq_zero.mp (Nat.le_zero.mp h)
    subst hs
    rw [scanRefsAux_nil, scanRefsAux_nil]
  | succ k ih =>
    cases fuel' with
    | zero =>
      have hs : s = [] := List.length_eq_zero.mp (Nat.le_zero.mp h')
      subst hs
      rw [scanRefsAux_nil, scanRefsAux_nil]
    | succ k' =>
      cases hm : matchAnchorAt s with
      | some tdr =>
        obtain ⟨t, d, r⟩ := tdr
        have hr := matchAnchorAt_shrink s t d r hm
        rw [scanRefsAux_succ_some k s t d r hm, scanRefsAux_succ_some k' s t d r hm]
        rw [ih k' r (by omega) (by omega)]
      | none =>
        cases s with
        | nil => rw [scanRefsAux_nil, scanRefsAux_nil]
        | cons c tail =>
          rw [scanRefsAux_succ_none k c tail hm, scanRefsAux_succ_none k' c tail hm]
          simp only [List.length_cons] at h h'
          rw [ih k' tail (by omega) (by omega)]

theorem scanRefs_match (s t d r : List Char) (h : matchAnchorAt s = some (t, d, r)) :
    scanRefs s = (t, d) :: scanRefs r := by
  cases s with
  | nil => exact Option.noConfusion (matchAnchorAt_nil ▸ h)
  | cons c tail =>
    have hr := matchAnchorAt_shrink _ t d r h
    show scanRefsAux (tail.length + 1) (c :: tail) = _
    rw [scanRefsAux_succ_some tail.length _ t d r h]
    simp only [List.length_cons] at hr
    rw [scanRefsAux_congr tail.length r.length r (by omega) (by omega)]
    rfl

theorem scanRefs_skip (c : Char) (z : List Char)
    (h : matchAnchorAt (c :: z) = none) : scanRefs (c :: z) = scanRefs z := by
  show scanRefsAux (z.length + 1) (c :: z) = _
  rw [scanRefsAux_succ_none z.length c z h]
  rfl

theorem scanRefs_anchor (sep pre t d rest : List Char)
    (hsep : containsCI ("<a".toList) sep = false)
    (hpre : ∀ c ∈ pre, c ≠ '"')
    (ht : ∀ c ∈ t, c ≠ '"' ∧ c ≠ '&')
    (htp : containsCI ("passage=".toList) t = false) (htne : t ≠ [])
    (hd : ∀ c ∈ d, c ≠ '<') (hdne : d ≠ []) :
    scanRefs (sep ++ (anchorStr pre t d ++ rest)) = (t, d) :: scanRefs rest := by
  induction sep with
  | nil =>
    rw [List.nil_append]
    exact scanRefs_match _ t d rest
      (matchAnchorAt_anchor pre t d rest hpre ht htp htne hd hdne)
  | cons c cs ih =>
    have hz : ciPrefix ("<a".toList) (c :: cs) = false :=
      ciPrefix_false_of_not_containsCI _ _ hsep [] (c :: cs) rfl
    rw [List.cons_append]
    have hnone : matchAnchorAt (c :: (cs ++ (anchorStr pre t d ++ rest))) = none := by
      apply matchAnchorAt_not_open
      cases cs with
      | nil =>
        have hw : anchorStr pre t d ++ rest =
            '<' :: 'A' :: ' ' :: 'H' :: 'R' :: 'E' :: 'F' :: '=' :: '"' ::
              (pre ++ ('p' :: 'a' :: 's' :: 's' :: 'a' :: 'g' :: 'e' :: '=' ::
                (t ++ ('"' :: '>' :: (d ++ ('<' :: '/' :: 'A' :: '>' :: rest)))))) := by
          simp [anchorStr]
        rw [List.nil_append, hw]
        show (ciEq c '<' && (ciEq '<' 'a' && true)) = false
        rw [show ciEq '<' 'a' = false from by decide]
        simp
      | cons c2 cs' =>
        exact ciPrefix_false_append _ (c :: c2 :: cs') _ (by simp) hz
    rw [scanRefs_skip c _ hnone]
    exact ih (containsCI_cons_false _ _ _ hsep)

theorem lastSplitNE_some_split (pat q a tok : List Char)
    (h : lastSplitNE pat q = some (a, tok)) :
    ∃ z, q = a ++ z ∧ ciPrefix pat z = true := by
  induction q generalizing a tok with
  | nil => exact Option.noConfusion h
  | cons c rest ih =>
    rw [lastSplitNE] at h
    cases hr : lastSplitNE pat rest with
    | some pr =>
      obtain ⟨p, suf⟩ := pr
      rw [hr] at h
      simp only [Option.some.injEq, Prod.mk.injEq] at h
      obtain ⟨ha, hsuf⟩ := h
      obtain ⟨z, hq, hz⟩ := ih p suf hr
      refine ⟨z, ?_, hz⟩
      rw [← ha, hq]
      rfl
    | none =>
      rw [hr] at h
      simp only [] at h
      split at h
      · rename_i hcond
        simp only [Option.some.injEq, Prod.mk.injEq] at h
        obtain ⟨ha, -⟩ := h
        rw [Bool.and_eq_true] at hcond
        exact ⟨c :: rest, by rw [← ha]; rfl, hcond.1⟩
      · exact Option.noConfusion h

theorem containsCI_of_split (pat a z : List Char) (hz : ciPrefix pat z = true) :
    containsCI pat (a ++ z) = true := by
  induction a with
  | nil =>
    rw [List.nil_append]
    cases z with
    | nil => simp [containsCI, firstSplitCI, hz]
    | cons c t => simp [containsCI, firstSplitCI, hz]
  | cons c cs ih =>
    rw [List.cons_append]
    simp only [containsCI, firstSplitCI]
    cases hb : ciPrefix pat (c :: (cs ++ z)) with
    | true => simp
    | false =>
      simp only [Bool.false_eq_true, if_false, isSome_map_eq]
      exact ih

theorem matchAnchorAt_some_contains (s t d r : List Char)
    (h : matchAnchorAt s = some (t, d, r)) :
    containsCI ("passage=".toList) s = true := by
  simp only [matchAnchorAt] at h
  split at h
  · exact Option.noConfusion h
  rename_i s1 h1
  split at h
  · exact Option.noConfusion h
  split at h
  · exact Option.noConfusion h
  rename_i s3 h3
  split at h
  · exact Option.noConfusion h
  rename_i q s4 h4
  split at h
  · exact Option.noConfusion h
  rename_i pr tok h5
  have e1 := reqCI_some _ _ _ h1
  have e3 := reqCI_some _ _ _ h3
  have e4 := (splitAtChar_some _ _ _ _ h4).1
  obtain ⟨z, hq, hz⟩ := lastSplitNE_some_split _ _ _ _ h5
  have hs1 : s = s.take ("<a".toList).length ++ s1 := by
    conv_lhs => rw [← List.take_append_drop (("<a".toList).length) s]
    rw [← e1.2]
  have hs2 : s1 = s1.takeWhile isSp ++ s1.dropWhile isSp :=
    (List.takeWhile_append_dropWhile (p := isSp) (l := s1)).symm
  have hs3 : s1.dropWhile isSp =
      (s1.dropWhile isSp).take (("href=\"".toList).length) ++ s3 := by
    conv_lhs => rw [← List.take_append_drop (("href=\"".toList).length) (s1.dropWhile isSp)]
    rw [← e3.2]
  have hflat : s = (s.take ("<a".toList).length ++ (s1.takeWhile isSp ++
      ((s1.dropWhile isSp).take (("href=\"".toList).length) ++ (pr ++ [])))) ++
      (z ++ ('"' :: s4)) := by
    conv_lhs => rw [hs1]
    conv_lhs => rw [hs2]
    conv_lhs => rw [hs3]
    rw [e4, hq]
    simp
  rw [hflat]
  exact containsCI_of_split _ _ _ (ciPrefix_append_right _ _ _ hz)

theorem scanRefsAux_no_passage (fuel : Nat) (s : List Char) (hf : s.length ≤ fuel)
    (h : containsCI ("passage=".toList) s = false) : scanRefsAux fuel s = [] := by
  induction fuel generalizing s with
  | zero => rfl
  | succ k ih =>
    cases hm : matchAnchorAt s with
    | some tdr =>
      obtain ⟨t, d, r⟩ := tdr
      rw [matchAnchorAt_some_contains s t d r hm] at h
      exact Bool.noConfusion h
    | none =>
      cases s with
      | nil => exact scanRefsAux_nil _
      | cons c tail =>
        rw [scanRefsAux_succ_none k c tail hm]
        simp only [List.length_cons] at hf
        exact ih tail (by omega) (containsCI_cons_false _ c tail h)

theorem scanRefs_no_passage (s : List Char)
    (h : containsCI ("passage=".toList) s = false) : scanRefs s = [] :=
  scanRefsAux_no_passage s.length s (Nat.le_refl _) h

/-- C1: corrected. As stated the claim fails: the display-text group of the
pattern is `([^<]+)`, so a raw display text containing nested inline markup
(such as `<i>Genesis 1</i>`) cannot be matched and the anchor yields
nothing, while the spec-side scanner (`specScanRefs`) yields its pair (see
the counterexample). Amended: for an anchor whose link target has `HREF="`
as its first attribute and carries the passage parameter last before the
closing quote — URL prefix free of `"`, passage token nonempty, free of
`"` and `&` and containing no further case-insensitive `passage=` — with a
nonempty display text free of `<`, preceded by markup containing no
case-insensitive `<a` anchor opening, the scanner emits the (raw token,
raw display) pair and continues after the anchor, in document order; and a
markup string with no case-insensitive occurrence of `passage=` yields no
pairs at all. -/
theorem claim_C1 (sep pre t d rest s : List Char)
    (hsep : containsCI ("<a".toList) sep = false)
    (hpre : ∀ c ∈ pre, c ≠ '"')
    (ht : ∀ c ∈ t, c ≠ '"' ∧ c ≠ '&')
    (htp : containsCI ("passage=".toList) t = false) (htne : t ≠ [])
    (hd : ∀ c ∈ d, c ≠ '<') (hdne : d ≠ [])
    (hnp : containsCI ("passage=".toList) s = false) :
    scanRefs (sep ++ (anchorStr pre t d ++ rest)) = (t, d) :: scanRefs rest ∧
    scanRefs s = [] :=
  ⟨scanRefs_anchor sep pre t d rest hsep hpre ht htp htne hd hdne,
   scanRefs_no_passage s hnp⟩

theorem claim_C1_witness :
    scanRefs (("<p>x</p>").toList ++ (anchorStr (("b.pl?").toList)
        (("Ps+23:1-3").toList) (("Psalm 23:1-3").toList) ++ (" y").toList)) =
      (("Ps+23:1-3").toList, ("Psalm 23:1-3").toList) :: scanRefs ((" y").toList) ∧
    scanRefs (("plain text").toList) = [] :=
  claim_C1 (("<p>x</p>").toList) (("b.pl?").toList) (("Ps+23:1-3").toList)
    (("Psalm 23:1-3").toList) ((" y").toList) (("plain text").toList)
    (by decide) (by decide) (by decide) (by decide) (by decide) (by decide)
    (by decide) (by decide)

/-- Counterexample to C1 as stated: the anchor
`<A HREF="b.pl?passage=Ge+1"><i>Genesis 1</i></A>` carries a passage query
parameter, and the spec-side scanner yields its (token, display) pair with
the nested inline markup, but the code's pattern rejects the `<` inside
the display text and yields nothing. -/
theorem claim_C1_cex :
    scanRefs (("<A HREF=\"b.pl?passage=Ge+1\"><i>Genesis 1</i></A>").toList) = [] ∧
    specScanRefs (("<A HREF=\"b.pl?passage=Ge+1\"><i>Genesis 1</i></A>").toList) =
      [(("Ge+1").toList, ("<i>Genesis 1</i>").toList)] :=
  ⟨by decide, by decide⟩

end MHC
